import Mathlib

/-!
Verification of the candle-normalization / indicator / store / cache /
rate-limit core of the `nss` repository (src/read_data.py), via a shallow
embedding into Lean.

Conventions of the embedding:
* Python floats are modelled exactly: finite values as rationals (`ℚ`),
  and the special values `inf`, `-inf`, `nan` as constructors of `PyFloat`
  where the code manipulates them explicitly.  Rounding and overflow of
  IEEE-754 arithmetic are not modelled.
* Python dicts are modelled as association lists with distinct keys;
  `dict.get` is `pyGet` / `pyGetD`.
* Raw upstream record values are restricted to `None` and finite numbers
  (`PyVal`); string/date timestamp parsing is outside the scope of the
  resolution-order claims, which only need the numeric branch of
  `_parse_time_to_unix_seconds`.
* List indexing `xs[i]` on the in-bounds paths of the code is modelled
  with `List.getD`; theorems carry the alignment hypotheses
  (`times.length = values.length`) under which the code does not raise.
-/

namespace ReadData

/-- A value stored under a key of a raw upstream record.  The embedding
restricts record values to Python `None` and finite numbers, the domain on
which the numeric field-resolution logic of `_normalize_candle_row`
operates. -/
inductive PyVal where
  | none
  | num (q : ℚ)
deriving DecidableEq, Repr

/-- Python truthiness of a `PyVal`: `None` and `0` are falsy. -/
def PyVal.truthy : PyVal → Bool
  | .none => false
  | .num q => q != 0

/-- A raw record: a Python dict, modelled as an association list. -/
def RawRow := List (String × PyVal)

/-- `raw.get(k)`: the stored value, or `None` when the key is absent. -/
def pyGet (raw : RawRow) (k : String) : PyVal :=
  (List.lookup k raw).getD PyVal.none

/-- `raw.get(k, d)`: the stored value, or `d` when the key is absent.
Note that a key present with value `None` yields `None`, not `d`. -/
def pyGetD (raw : RawRow) (k : String) (d : PyVal) : PyVal :=
  (List.lookup k raw).getD d

/-- Python `a or b`: `a` when truthy, else `b`. -/
def pyOr (a b : PyVal) : PyVal :=
  if a.truthy then a else b

/-- `_safe_float` on the numeric domain: `None` (and empty string) map to
the `None` default; a finite number round-trips through `str`/`float`
unchanged. -/
def safeFloat (v : PyVal) : Option ℚ :=
  match v with
  | .none => Option.none
  | .num q => some q

/-- The numeric branch of `_parse_time_to_unix_seconds`: values above
`1e12` are treated as milliseconds since the epoch (divide by 1000,
truncate), values above `1e9` as seconds, anything else fails.  Python's
`int()` truncates toward zero, which on these positive values is the
floor. -/
def parseTimeToUnixSeconds (v : PyVal) : Option ℤ :=
  match v with
  | .none => Option.none
  | .num q =>
    if (1000000000000 : ℚ) < q then some ⌊q / 1000⌋
    else if (1000000000 : ℚ) < q then some ⌊q⌋
    else Option.none

/-- A canonical candle, the output shape of `_normalize_candle_row`
(`open` is a Lean keyword, hence the field name `open_`).  On this
numeric domain `_safe_json_number` is the identity on the resolved finite
fields, so the fields are plain rationals. -/
structure Candle where
  time : ℤ
  open_ : ℚ
  high : ℚ
  low : ℚ
  close : ℚ
  volume : ℚ
deriving DecidableEq, Repr

/-- `_normalize_candle_row`: resolve each canonical field from its alias
chain exactly as the code does — the time aliases chained with Python
`or`, the price fields with `is not None` tests and, for
close/volume, a `dict.get` with a computed default — then reject the row
unless time and all four prices resolved.  `volume or 0.0` is modelled by
`Option.getD _ 0` (a stored volume of `0` is falsy and also yields `0`). -/
def normalizeCandleRow (raw : RawRow) : Option Candle :=
  let timeValue :=
    pyOr (pyGet raw "time") (pyOr (pyGet raw "timestamp")
      (pyOr (pyGet raw "date") (pyOr (pyGet raw "businessDate") (pyGet raw "tradeDate"))))
  let unixTime := parseTimeToUnixSeconds timeValue
  let openPrice :=
    safeFloat (if pyGet raw "open" ≠ PyVal.none then pyGet raw "open" else pyGet raw "openPrice")
  let highPrice :=
    safeFloat (if pyGet raw "high" ≠ PyVal.none then pyGet raw "high" else pyGet raw "highPrice")
  let lowPrice :=
    safeFloat (if pyGet raw "low" ≠ PyVal.none then pyGet raw "low" else pyGet raw "lowPrice")
  let closePrice :=
    safeFloat (if pyGet raw "close" ≠ PyVal.none then pyGet raw "close"
      else pyGetD raw "closePrice" (pyGet raw "lastTradedPrice"))
  let volume :=
    safeFloat (if pyGet raw "volume" ≠ PyVal.none then pyGet raw "volume"
      else pyGetD raw "totalTradeQuantity" (pyGet raw "lastTradedVolume"))
  match unixTime, openPrice, highPrice, lowPrice, closePrice with
  | some t, some o, some h, some l, some c =>
    some { time := t, open_ := o, high := h, low := l, close := c, volume := volume.getD 0 }
  | _, _, _, _, _ => Option.none

/-- The resolution rule exactly as the specification states it: the value
under the first *present* key wins, regardless of the stored value. -/
def resolveFirstPresent (raw : RawRow) : List String → Option PyVal
  | [] => Option.none
  | k :: ks =>
    match List.lookup k raw with
    | some v => some v
    | Option.none => resolveFirstPresent raw ks

/-- The value under the first alias whose stored value is truthy (what a
Python `or` chain actually selects, up to falsy-versus-`None`). -/
def resolveFirstTruthy (raw : RawRow) : List String → PyVal
  | [] => PyVal.none
  | k :: ks => if (pyGet raw k).truthy then pyGet raw k else resolveFirstTruthy raw ks

/-- The value under the first alias whose stored value is not `None`. -/
def resolveFirstNonNone (raw : RawRow) : List String → PyVal
  | [] => PyVal.none
  | k :: ks => if pyGet raw k ≠ PyVal.none then pyGet raw k else resolveFirstNonNone raw ks

/-- The three-alias pattern used for close and volume: the first key when
its value is not `None`, else the value stored under the second key if
that key is present, else the value under the third key. -/
def resolveWithGetD (raw : RawRow) (k1 k2 k3 : String) : PyVal :=
  if pyGet raw k1 ≠ PyVal.none then pyGet raw k1 else pyGetD raw k2 (pyGet raw k3)

/-- The time alias chain of `_normalize_candle_row`. -/
def timeAliases : List String := ["time", "timestamp", "date", "businessDate", "tradeDate"]

/-! ### Indicator engine

Python float values inside the indicator engine, where `float("inf")` is
manipulated explicitly (`_rsi_wilder`), are modelled by `PyFloat`: exact
finite values plus the IEEE-754 special values. -/

/-- A Python float: a finite value (exact, as a rational) or one of the
special values `inf`, `-inf`, `nan`. -/
inductive PyFloat where
  | fin (q : ℚ)
  | inf
  | neginf
  | nan
deriving DecidableEq, Repr

/-- `math.isfinite`. -/
def PyFloat.isFinite : PyFloat → Bool
  | .fin _ => true
  | _ => false

/-- Float addition on finite and special values (IEEE-754 rules for the
special values; finite arithmetic is exact). -/
def pfAdd : PyFloat → PyFloat → PyFloat
  | .fin a, .fin b => .fin (a + b)
  | .fin _, .inf => .inf
  | .inf, .fin _ => .inf
  | .inf, .inf => .inf
  | .fin _, .neginf => .neginf
  | .neginf, .fin _ => .neginf
  | .neginf, .neginf => .neginf
  | _, _ => .nan

/-- Float subtraction, same conventions as `pfAdd`. -/
def pfSub : PyFloat → PyFloat → PyFloat
  | .fin a, .fin b => .fin (a - b)
  | .fin _, .inf => .neginf
  | .fin _, .neginf => .inf
  | .inf, .fin _ => .inf
  | .neginf, .fin _ => .neginf
  | .inf, .neginf => .inf
  | .neginf, .inf => .neginf
  | _, _ => .nan

/-- Float division.  A finite value divided by an infinity is `0`; the
finite/finite case with a zero divisor raises `ZeroDivisionError` in
Python and is unreachable on the code paths modelled here (the RSI
divisor `1 + rs` is at least `1`); it is mapped to `nan`. -/
def pfDiv : PyFloat → PyFloat → PyFloat
  | .fin a, .fin b => if b = 0 then .nan else .fin (a / b)
  | .fin _, .inf => .fin 0
  | .fin _, .neginf => .fin 0
  | .inf, .fin b => if b < 0 then .neginf else .inf
  | .neginf, .fin b => if b < 0 then .inf else .neginf
  | _, _ => .nan

/-- `_safe_json_number` at the indicator emission sites: a non-finite
value becomes the explicit no-value marker `Option.none`, a finite value
passes through. -/
def safeJsonNumber (f : PyFloat) : Option PyFloat :=
  if f.isFinite then some f else Option.none

/-- One point of an indicator series: the `{"time": ..., "value": ...}`
dict, whose value is either a float or the `None` marker. -/
structure IndicatorPoint where
  time : ℤ
  value : Option PyFloat
deriving DecidableEq, Repr

/-- The loop of `_sma` (`for idx in range(period, len(values))`),
translated structurally: the iteration consumes the triples
`(values[idx], values[idx - period], times[idx])` for `idx` from `period`
on, carrying the running window sum. -/
def smaLoop (period : ℕ) : List (ℚ × ℚ × ℤ) → ℚ → List IndicatorPoint
  | [], _ => []
  | (incoming, outgoing, t) :: rest, windowSum =>
    let ws := windowSum + incoming - outgoing
    { time := t, value := safeJsonNumber (.fin (ws / (period : ℚ))) } :: smaLoop period rest ws

/-- `_sma`: simple moving average via a running sum; empty when fewer
than `period` observations exist. -/
def sma (values : List ℚ) (period : ℕ) (times : List ℤ) : List IndicatorPoint :=
  if values.length < period then []
  else
    let windowSum := (values.take period).sum
    { time := times.getD (period - 1) 0,
      value := safeJsonNumber (.fin (windowSum / (period : ℚ))) } ::
      smaLoop period ((values.drop period).zip (values.zip (times.drop period))) windowSum

/-- The loop of `_ema` (`for idx in range(period, len(values))`),
translated structurally over the pairs `(values[idx], times[idx])`. -/
def emaLoop (period : ℕ) : List (ℚ × ℤ) → ℚ → List IndicatorPoint
  | [], _ => []
  | (price, t) :: rest, emaPrev =>
    let next := (price - emaPrev) * (2 / ((period : ℚ) + 1)) + emaPrev
    { time := t, value := safeJsonNumber (.fin next) } :: emaLoop period rest next

/-- `_ema`: seed is the mean of the first `period` values, emitted at
index `period - 1`; multiplier `2 / (period + 1)`. -/
def ema (values : List ℚ) (period : ℕ) (times : List ℤ) : List IndicatorPoint :=
  if values.length < period then []
  else
    let initial := (values.take period).sum / (period : ℚ)
    { time := times.getD (period - 1) 0, value := safeJsonNumber (.fin initial) } ::
      emaLoop period ((values.drop period).zip (times.drop period)) initial

/-- `RSI = 100 - 100/(1 + RS)` with `RS = avgGain/avgLoss`, taken as
`float("inf")` when `avgLoss == 0`, computed with float special-value
arithmetic exactly as `_rsi_wilder` does. -/
def rsiFromAvgs (avgGain avgLoss : ℚ) : PyFloat :=
  let rs : PyFloat := if avgLoss = 0 then .inf else .fin (avgGain / avgLoss)
  pfSub (.fin 100) (pfDiv (.fin 100) (pfAdd (.fin 1) rs))

/-- The loop of `_rsi_wilder` (`for idx in range(period, len(gains))`),
translated structurally over the triples
`(gains[idx], losses[idx], times[idx + 1])`, carrying the Wilder-smoothed
averages. -/
def rsiLoop (period : ℕ) : List (ℚ × ℚ × ℤ) → ℚ → ℚ → List IndicatorPoint
  | [], _, _ => []
  | (g, l, t) :: rest, avgGain, avgLoss =>
    let ag := (avgGain * ((period : ℚ) - 1) + g) / (period : ℚ)
    let al := (avgLoss * ((period : ℚ) - 1) + l) / (period : ℚ)
    { time := t, value := safeJsonNumber (rsiFromAvgs ag al) } :: rsiLoop period rest ag al

/-- `_rsi_wilder`: per-step gains `max(Δ, 0)` and losses `|min(Δ, 0)|`,
seed averages over the first `period` steps, Wilder smoothing afterwards;
empty when the input has `period` or fewer observations. -/
def rsiWilder (values : List ℚ) (period : ℕ) (times : List ℤ) : List IndicatorPoint :=
  if values.length ≤ period then []
  else
    let diffs := List.zipWith (fun a b => b - a) values (values.drop 1)
    let gains := diffs.map (fun d => max d 0)
    let losses := diffs.map (fun d => |min d 0|)
    let avgGain := (gains.take period).sum / (period : ℚ)
    let avgLoss := (losses.take period).sum / (period : ℚ)
    { time := times.getD period 0, value := safeJsonNumber (rsiFromAvgs avgGain avgLoss) } ::
      rsiLoop period ((gains.drop period).zip ((losses.drop period).zip (times.drop (period + 1))))
        avgGain avgLoss

/-- The loop of `_ema_values_only`, translated structurally. -/
def emaValsLoop (period : ℕ) : List ℚ → ℚ → List ℚ
  | [], _ => []
  | price :: rest, prev =>
    let next := (price - prev) * (2 / ((period : ℚ) + 1)) + prev
    next :: emaValsLoop period rest next

/-- `_ema_values_only`: the EMA value sequence together with the index of
its first element in the input (`period - 1`); `([], period - 1)` when
the input is too short. -/
def emaValuesOnly (values : List ℚ) (period : ℕ) : List ℚ × ℕ :=
  if values.length < period then ([], period - 1)
  else
    let seed := (values.take period).sum / (period : ℚ)
    (seed :: emaValsLoop period (values.drop period) seed, period - 1)

/-- The three series returned by `_macd`. -/
structure MacdSeries where
  macd : List IndicatorPoint
  signal : List IndicatorPoint
  hist : List IndicatorPoint
deriving DecidableEq, Repr

/-- `_macd`: EMA(12) and EMA(26) aligned from the later start index, the
MACD line as their pointwise difference, signal as EMA(9) of the MACD
line, histogram as MACD − signal — with all three returned series
aligned to the signal values (index `i + signal_offset` of the MACD
line).  The index loops building the aligned lists are translated as
maps over `List.range`. -/
def macdCalc (values : List ℚ) (times : List ℤ) : MacdSeries :=
  let p12 := emaValuesOnly values 12
  let p26 := emaValuesOnly values 26
  if p12.1 = [] ∨ p26.1 = [] then ⟨[], [], []⟩
  else
    let startIdx := max p12.2 p26.2
    let offset12 := startIdx - p12.2
    let offset26 := startIdx - p26.2
    let commonLength := min (p12.1.length - offset12) (p26.1.length - offset26)
    if commonLength = 0 then ⟨[], [], []⟩
    else
      let macdLineVals := (List.range commonLength).map
        (fun i => p12.1.getD (offset12 + i) 0 - p26.1.getD (offset26 + i) 0)
      let macdTimes := (List.range commonLength).map (fun i => times.getD (startIdx + i) 0)
      let sp := emaValuesOnly macdLineVals 9
      if sp.1 = [] then ⟨[], [], []⟩
      else
        { macd := (List.range sp.1.length).map (fun i =>
            { time := macdTimes.getD (i + sp.2) 0,
              value := safeJsonNumber (.fin (macdLineVals.getD (i + sp.2) 0)) }),
          signal := (List.range sp.1.length).map (fun i =>
            { time := macdTimes.getD (i + sp.2) 0,
              value := safeJsonNumber (.fin (sp.1.getD i 0)) }),
          hist := (List.range sp.1.length).map (fun i =>
            { time := macdTimes.getD (i + sp.2) 0,
              value := safeJsonNumber
                (.fin (macdLineVals.getD (i + sp.2) 0 - sp.1.getD i 0)) }) }

/-- The three series returned by `_bollinger`. -/
structure BollingerSeries where
  upper : List IndicatorPoint
  middle : List IndicatorPoint
  lower : List IndicatorPoint
deriving DecidableEq, Repr

/-- `_bollinger`: per window of `period` closes ending at index `idx`
(for `idx` from `period - 1`), middle = mean, std = square root of the
population variance, upper/lower = middle ± multiplier·std.  `math.sqrt`
— the one non-algebraic operation of the engine, finite on every finite
non-negative input — is abstracted as the parameter `sqrtFn`. -/
def bollinger (sqrtFn : ℚ → ℚ) (values : List ℚ) (period : ℕ) (stdMultiplier : ℚ)
    (times : List ℤ) : BollingerSeries :=
  if values.length < period then ⟨[], [], []⟩
  else
    let n := values.length - (period - 1)
    let at_ := fun (j : ℕ) =>
      let idx := period - 1 + j
      let window := (values.drop (idx + 1 - period)).take period
      let mean := window.sum / (period : ℚ)
      let variance := (window.map (fun x => (x - mean) ^ 2)).sum / (period : ℚ)
      let stdDev := sqrtFn variance
      (times.getD idx 0, mean, stdDev)
    { upper := (List.range n).map (fun j =>
        { time := (at_ j).1,
          value := safeJsonNumber (.fin ((at_ j).2.1 + stdMultiplier * (at_ j).2.2)) }),
      middle := (List.range n).map (fun j =>
        { time := (at_ j).1, value := safeJsonNumber (.fin (at_ j).2.1) }),
      lower := (List.range n).map (fun j =>
        { time := (at_ j).1,
          value := safeJsonNumber (.fin ((at_ j).2.1 - stdMultiplier * (at_ j).2.2)) }) }

/-- One named output of `_compute_indicator_series`. -/
inductive IndicatorOutput where
  | single (pts : List IndicatorPoint)
  | macdOut (s : MacdSeries)
  | bollingerOut (s : BollingerSeries)
deriving DecidableEq, Repr

/-- `_compute_indicator_series`: closes and times extracted from the
candles, one output per recognized requested name (unknown names are
skipped). -/
def computeIndicatorSeries (sqrtFn : ℚ → ℚ) (candles : List Candle)
    (indicatorNames : List String) : List (String × IndicatorOutput) :=
  let closes := candles.map Candle.close
  let times := candles.map Candle.time
  indicatorNames.filterMap (fun ind =>
    if ind = "sma20" then some (ind, .single (sma closes 20 times))
    else if ind = "ema50" then some (ind, .single (ema closes 50 times))
    else if ind = "rsi14" then some (ind, .single (rsiWilder closes 14 times))
    else if ind = "macd" then some (ind, .macdOut (macdCalc closes times))
    else if ind = "bb20" then some (ind, .bollingerOut (bollinger sqrtFn closes 20 2 times))
    else Option.none)

/-- All points of one indicator output, flattened. -/
def outputPoints : IndicatorOutput → List IndicatorPoint
  | .single pts => pts
  | .macdOut s => s.macd ++ s.signal ++ s.hist
  | .bollingerOut s => s.upper ++ s.middle ++ s.lower

/-! ### Time-series store -/

/-- A candle of the document store
(`data/ohlc_history.json`): date string plus OHLCV. -/
structure DocCandle where
  date : String
  open_ : ℚ
  high : ℚ
  low : ℚ
  close : ℚ
  volume : ℚ
deriving DecidableEq, Repr

/-- The sort key of the document store:
`sorted(..., key=lambda item: item.get("date") or "")` — with `date`
always present in stored candles, ordering by the date string. -/
def dateLe (a b : DocCandle) : Bool := a.date ≤ b.date

/-- The read of `/api/ohlc/history` (document backend, `ohlc_history`):
the symbol's candles sorted ascending by date string, and for a positive
limit the Python slice `[-limit:]`, i.e. the *last* `limit` candles.
The store is modelled as its `symbols` map with upper-case keys (the
route upper-cases the queried symbol). -/
def ohlcHistoryRead (symbols : List (String × List DocCandle)) (symbol : String)
    (limit : ℤ) : List DocCandle :=
  let candles := (List.lookup symbol symbols).getD []
  let candlesSorted := candles.mergeSort dateLe
  if 0 < limit then candlesSorted.drop (candlesSorted.length - limit.toNat) else candlesSorted

/-- A row of the relational `daily_ohlc` table (the columns selected by
`get_ohlc_history`; the trading date is its ISO `YYYY-MM-DD` string, on
which lexicographic order is date order). -/
structure OhlcRow where
  symbol : String
  tradingDate : String
  open_ : ℚ
  high : ℚ
  low : ℚ
  close : ℚ
  prevClose : ℚ
  volume : ℚ
  tradeQty : ℚ
  tradeValue : ℚ
  pctChange : ℚ
deriving DecidableEq, Repr

/-- The read of `/api/ohlc/<symbol>` (relational backend,
`get_ohlc_history`): the semantics of
`WHERE symbol = %s AND trading_date BETWEEN %s AND %s ORDER BY
trading_date ASC LIMIT %s` — inclusive range filter, ascending order,
then the *first* `limit` rows. -/
def getOhlcHistoryRead (table : List OhlcRow) (symbol : String)
    (fromDate toDate : String) (limit : ℕ) : List OhlcRow :=
  let matching := table.filter (fun r =>
    r.symbol == symbol && decide (fromDate ≤ r.tradingDate) && decide (r.tradingDate ≤ toDate))
  let ordered := matching.mergeSort (fun a b => a.tradingDate ≤ b.tradingDate)
  ordered.take limit

/-- The document-backend row corresponding to a stored candle, for
comparing the two backends on the same stored series (columns the
document store does not keep are zero). -/
def rowOfCandle (symbol : String) (c : DocCandle) : OhlcRow :=
  { symbol := symbol, tradingDate := c.date, open_ := c.open_, high := c.high,
    low := c.low, close := c.close, prevClose := 0, volume := c.volume,
    tradeQty := 0, tradeValue := 0, pctChange := 0 }

/-- The find-and-replace loop of `ohlc_snapshot`: replace the first
candle whose date equals today with the new entry, else append it at the
end. -/
def replaceToday (todayStr : String) (newEntry : DocCandle) : List DocCandle → List DocCandle
  | [] => [newEntry]
  | c :: rest =>
    if c.date = todayStr then newEntry :: rest else c :: replaceToday todayStr newEntry rest

/-- The per-symbol upsert of `ohlc_snapshot`: find-and-replace (or
append) today's candle, then re-sort ascending by date string
(`candles.sort(key=...)`, a stable sort, modelled by `mergeSort`). -/
def upsertToday (todayStr : String) (newEntry : DocCandle) (candles : List DocCandle) :
    List DocCandle :=
  (replaceToday todayStr newEntry candles).mergeSort dateLe

/-! ### Rate limiter -/

/-- One fixed-window bucket of `_rate_limit_bucket`. -/
structure RateBucket where
  windowStart : ℚ
  count : ℕ
deriving DecidableEq, Repr

/-- The outcome of `_enforce_rate_limit`: admission (the handler
proceeds) or a 429 rejection carrying the retry-after hint. -/
inductive RateDecision where
  | admitted
  | rejected (retryAfter : ℤ)
deriving DecidableEq, Repr

/-- Dict assignment `buckets[key] = b` on an association list. -/
def setBucket (buckets : List (String × RateBucket)) (key : String) (b : RateBucket) :
    List (String × RateBucket) :=
  match buckets with
  | [] => [(key, b)]
  | (k, v) :: rest => if k = key then (key, b) :: rest else (k, v) :: setBucket rest key b

/-- `_enforce_rate_limit` for one `route:client` key, parameterized by
the configured maximum and window (the module constants
`RATE_LIMIT_MAX_REQUESTS = 30` and `RATE_LIMIT_WINDOW_SECONDS = 60` in
the source).  Fresh bucket with count 1 and admission when no bucket
exists or the window has elapsed; otherwise increment, and reject when
the post-increment count exceeds the maximum, with retry-after
`max(1, int(window - (now - window_start)))` — `int()` truncates toward
zero, which is the floor on this positive quantity. -/
def enforceRateLimit (maxRequests : ℕ) (windowSeconds : ℚ)
    (buckets : List (String × RateBucket)) (key : String) (now : ℚ) :
    List (String × RateBucket) × RateDecision :=
  match List.lookup key buckets with
  | Option.none => (setBucket buckets key ⟨now, 1⟩, .admitted)
  | some bucket =>
    if windowSeconds ≤ now - bucket.windowStart then
      (setBucket buckets key ⟨now, 1⟩, .admitted)
    else
      let newCount := bucket.count + 1
      if maxRequests < newCount then
        (setBucket buckets key ⟨bucket.windowStart, newCount⟩,
          .rejected (max 1 ⌊windowSeconds - (now - bucket.windowStart)⌋))
      else (setBucket buckets key ⟨bucket.windowStart, newCount⟩, .admitted)

/-- `RATE_LIMIT_MAX_REQUESTS`. -/
def rateLimitMaxRequests : ℕ := 30

/-- `RATE_LIMIT_WINDOW_SECONDS`. -/
def rateLimitWindowSeconds : ℚ := 60

/-! ### Cache -/

/-- One entry of `_cache_store`: `{"ts": ..., "value": ...}`. -/
structure CacheEntry (α : Type) where
  ts : ℚ
  value : α

/-- `_cache_set`: store the value with the current timestamp
(dict assignment on the backing map). -/
def cacheSet {α : Type} (store : List (String × CacheEntry α)) (key : String) (now : ℚ)
    (value : α) : List (String × CacheEntry α) :=
  match store with
  | [] => [(key, ⟨now, value⟩)]
  | (k, v) :: rest => if k = key then (key, ⟨now, value⟩) :: rest else (k, v) :: cacheSet rest key now value

/-- `_cache_store.pop(key, None)`. -/
def popKey {α : Type} : List (String × CacheEntry α) → String → List (String × CacheEntry α)
  | [], _ => []
  | (k, v) :: rest, key => if k = key then rest else (k, v) :: popKey rest key

/-- `CACHE_TTL_SECONDS = 15 * 60`. -/
def cacheTtlSeconds : ℚ := 15 * 60

/-- `_cache_get`, parameterized by the TTL (the module constant
`CACHE_TTL_SECONDS` in the source): a missing key is a miss; an entry
with `now - ts >= ttl` is popped from the backing map and reported as a
miss in the same lookup; otherwise the stored value is returned and the
map unchanged. -/
def cacheGet {α : Type} (ttl : ℚ) (store : List (String × CacheEntry α)) (key : String)
    (now : ℚ) : List (String × CacheEntry α) × Option α :=
  match List.lookup key store with
  | Option.none => (store, Option.none)
  | some entry =>
    if ttl ≤ now - entry.ts then (popKey store key, Option.none)
    else (store, some entry.value)

/-! ### Indicator request validation -/

/-- The `allowed` set of `get_ta_indicators`. -/
def allowedIndicators : List String := ["sma20", "ema50", "rsi14", "macd", "bb20"]

/-- The default indicator list used when the request names none. -/
def defaultIndicators : List String := ["sma20", "ema50", "rsi14", "macd", "bb20"]

/-- Python `str.strip` whitespace (the ASCII whitespace characters that
occur in this code's inputs). -/
def isSpaceChar (c : Char) : Bool := c = ' ' || c = '\t' || c = '\n' || c = '\r'

/-- Python `str.strip()`: drop whitespace from both ends. -/
def pyStrip (s : String) : String :=
  String.mk (((s.data.dropWhile isSpaceChar).reverse.dropWhile isSpaceChar).reverse)

/-- Python `str.lower()`. -/
def pyLower (s : String) : String := String.mk (s.data.map Char.toLower)

/-- The splitter of Python `str.split(",")`. -/
def splitCommaAux : List Char → List Char → List (List Char)
  | [], acc => [acc.reverse]
  | c :: rest, acc =>
    if c = ',' then acc.reverse :: splitCommaAux rest [] else splitCommaAux rest (c :: acc)

/-- Python `str.split(",")` (note `"".split(",") == [""]`). -/
def pySplitComma (s : String) : List String := (splitCommaAux s.data []).map String.mk

/-- The requested-indicator list of `get_ta_indicators`: the parameter
(absent → `""`), stripped and lower-cased, split on commas, each item
stripped, empty items dropped. -/
def requestedOf (param : Option String) : List String :=
  let indicatorsCsv := pyLower (pyStrip (param.getD ""))
  ((pySplitComma indicatorsCsv).map pyStrip).filter (fun s => s ≠ "")

/-- The validation-and-default logic of `get_ta_indicators`: any
requested name outside the allowed set is a 400 error carrying the
invalid names (before any computation — an `Except.error` result means
`_get_cached_indicators` is never called); an empty request defaults to
all five indicators; otherwise the requested list is computed. -/
def parseIndicatorsParam (param : Option String) : Except (List String) (List String) :=
  let requested := requestedOf param
  let invalid := requested.filter (fun s => ¬ allowedIndicators.contains s)
  if invalid ≠ [] then .error invalid
  else if requested = [] then .ok defaultIndicators
  else .ok requested

/-- The internal MACD line of `_macd`: fast EMA(12) minus slow EMA(26),
aligned from the later start index 25 (`offset12 = 14`, `offset26 = 0`),
as a function of the position in the aligned region. -/
def macdLine (values : List ℚ) (i : ℕ) : ℚ :=
  (emaValuesOnly values 12).1.getD (14 + i) 0 - (emaValuesOnly values 26).1.getD i 0

/-! ## Theorems -/

/-- Parsing a falsy value (`None` or `0`) as a timestamp fails. -/
lemma parseTime_of_not_truthy {v : PyVal} (h : v.truthy = false) :
    parseTimeToUnixSeconds v = Option.none := by
  cases v with
  | none => rfl
  | num q =>
    simp [PyVal.truthy] at h
    subst h
    simp [parseTimeToUnixSeconds]
    norm_num

/-- The `or` chain over the five time aliases parses to the same
timestamp as first-truthy-alias resolution. -/
lemma resolveFirstTruthy_parse_eq (raw : RawRow) :
    parseTimeToUnixSeconds (resolveFirstTruthy raw timeAliases) =
      parseTimeToUnixSeconds (pyOr (pyGet raw "time") (pyOr (pyGet raw "timestamp")
        (pyOr (pyGet raw "date") (pyOr (pyGet raw "businessDate") (pyGet raw "tradeDate"))))) := by
  simp only [resolveFirstTruthy, timeAliases, pyOr]
  by_cases h1 : (pyGet raw "time").truthy <;>
    by_cases h2 : (pyGet raw "timestamp").truthy <;>
    by_cases h3 : (pyGet raw "date").truthy <;>
    by_cases h4 : (pyGet raw "businessDate").truthy <;>
    by_cases h5 : (pyGet raw "tradeDate").truthy <;>
    simp [h1, h2, h3, h4, h5, parseTime_of_not_truthy]
  rfl

/-- Resolution over a two-alias list picks the first non-`None` value. -/
lemma resolveFirstNonNone_pair (raw : RawRow) (k1 k2 : String) :
    resolveFirstNonNone raw [k1, k2] =
      (if pyGet raw k1 ≠ PyVal.none then pyGet raw k1 else pyGet raw k2) := by
  simp only [resolveFirstNonNone]
  by_cases h1 : pyGet raw k1 = PyVal.none <;> by_cases h2 : pyGet raw k2 = PyVal.none <;>
    simp [h1, h2]

/-- C1 counterexample: in the record
`{"time": 0, "timestamp": 2000000000, "open": 1, "high": 1, "low": 1,
"close": 1}` the first *present* time alias is `"time"`, whose stored
value `0` does not parse as a timestamp — so under the claimed
first-present-wins rule the row would be rejected — yet the normalizer
accepts the row and resolves its time from `"timestamp"`: a present key
with a falsy value does not win. -/
theorem normalize_not_first_present :
    resolveFirstPresent
        [("time", PyVal.num 0), ("timestamp", PyVal.num 2000000000), ("open", PyVal.num 1),
          ("high", PyVal.num 1), ("low", PyVal.num 1), ("close", PyVal.num 1)] timeAliases
        = some (PyVal.num 0)
    ∧ parseTimeToUnixSeconds (PyVal.num 0) = Option.none
    ∧ (normalizeCandleRow
        [("time", PyVal.num 0), ("timestamp", PyVal.num 2000000000), ("open", PyVal.num 1),
          ("high", PyVal.num 1), ("low", PyVal.num 1), ("close", PyVal.num 1)]).map Candle.time
        = some 2000000000 := by
  refine ⟨by decide, by decide, by decide⟩

/-- C1 amended: for every raw record, `_normalize_candle_row` resolves
time from the first alias (of `time | timestamp | date | businessDate |
tradeDate`) holding a *truthy* value, open/high/low from the first alias
(of `<x> | <x>Price`) holding a non-`None` value, and close (volume)
from `close` (`volume`) when non-`None`, else from the value stored
under `closePrice` (`totalTradeQuantity`) when that key is present, else
from `lastTradedPrice` (`lastTradedVolume`); the row is accepted exactly
when time and all four prices resolve, with an unresolved volume
defaulting to 0. -/
theorem normalize_field_resolution (raw : RawRow) :
    normalizeCandleRow raw =
      match parseTimeToUnixSeconds (resolveFirstTruthy raw timeAliases),
        safeFloat (resolveFirstNonNone raw ["open", "openPrice"]),
        safeFloat (resolveFirstNonNone raw ["high", "highPrice"]),
        safeFloat (resolveFirstNonNone raw ["low", "lowPrice"]),
        safeFloat (resolveWithGetD raw "close" "closePrice" "lastTradedPrice") with
      | some t, some o, some h, some l, some c =>
        some { time := t, open_ := o, high := h, low := l, close := c,
               volume := (safeFloat
                 (resolveWithGetD raw "volume" "totalTradeQuantity" "lastTradedVolume")).getD 0 }
      | _, _, _, _, _ => Option.none := by
  unfold normalizeCandleRow resolveWithGetD
  rw [resolveFirstTruthy_parse_eq, resolveFirstNonNone_pair, resolveFirstNonNone_pair,
    resolveFirstNonNone_pair]


/-- Looking up a key just set finds the fresh entry. -/
lemma lookup_cacheSet {α : Type} (store : List (String × CacheEntry α)) (key : String)
    (t : ℚ) (v : α) :
    List.lookup key (cacheSet store key t v) = some ⟨t, v⟩ := by
  induction store with
  | nil => simp [cacheSet, List.lookup]
  | cons kv rest ih =>
    obtain ⟨k, e⟩ := kv
    by_cases h : k = key
    · simp [cacheSet, h, List.lookup]
    · have hbe : (key == k) = false := beq_eq_false_iff_ne.mpr (Ne.symm h)
      simp [cacheSet, if_neg h, List.lookup, hbe, ih]

/-- Popping a key from a dict (distinct keys) removes it. -/
lemma lookup_popKey {α : Type} (store : List (String × CacheEntry α)) (key : String)
    (hnd : (store.map Prod.fst).Nodup) :
    List.lookup key (popKey store key) = Option.none := by
  induction store with
  | nil => simp [popKey, List.lookup]
  | cons kv rest ih =>
    obtain ⟨k, e⟩ := kv
    simp only [List.map_cons, List.nodup_cons] at hnd
    by_cases h : k = key
    · subst h
      simp only [popKey, if_pos rfl]
      rw [List.lookup_eq_none_iff]
      intro a hab
      rw [if_pos trivial] at hab
      have hmem : a.1 ∈ List.map Prod.fst rest := List.mem_map_of_mem Prod.fst hab
      simp only [bne_iff_ne, ne_eq]
      intro hka
      exact hnd.1 (by rw [hka]; exact hmem)
    · have hbe : (key == k) = false := beq_eq_false_iff_ne.mpr (Ne.symm h)
      simp [popKey, if_neg h, List.lookup, hbe, ih hnd.2]

/-- Setting a key keeps the key list, appending the key when new. -/
lemma keys_cacheSet {α : Type} (store : List (String × CacheEntry α)) (key : String)
    (t : ℚ) (v : α) :
    (cacheSet store key t v).map Prod.fst =
      if key ∈ store.map Prod.fst then store.map Prod.fst else store.map Prod.fst ++ [key] := by
  induction store with
  | nil => simp [cacheSet]
  | cons kv rest ih =>
    obtain ⟨k, e⟩ := kv
    by_cases h : k = key
    · subst h
      simp [cacheSet]
    · simp only [cacheSet, if_neg h, List.map_cons, ih, List.mem_cons]
      by_cases hm : key ∈ rest.map Prod.fst <;> simp [hm, h, Ne.symm h]

/-- Setting a key preserves distinctness of the keys. -/
lemma nodup_keys_cacheSet {α : Type} (store : List (String × CacheEntry α)) (key : String)
    (t : ℚ) (v : α) (hnd : (store.map Prod.fst).Nodup) :
    ((cacheSet store key t v).map Prod.fst).Nodup := by
  rw [keys_cacheSet]
  by_cases hm : key ∈ store.map Prod.fst
  · simpa [hm] using hnd
  · simp [hm, List.nodup_append, hnd]

/-- C9: after `_cache_set(key, value)` at time `tSet`, a `_cache_get` at
any `now` with `now - tSet < ttl` returns the stored value with the map
unchanged, and at any `now` with `now - tSet >= ttl` reports a miss and
removes the entry from the backing map during that same lookup. -/
theorem cache_ttl_spec {α : Type} (store : List (String × CacheEntry α)) (key : String)
    (tSet now ttl : ℚ) (value : α) (hnd : (store.map Prod.fst).Nodup) :
    (now - tSet < ttl →
      cacheGet ttl (cacheSet store key tSet value) key now
        = (cacheSet store key tSet value, some value))
    ∧ (ttl ≤ now - tSet →
      cacheGet ttl (cacheSet store key tSet value) key now
          = (popKey (cacheSet store key tSet value) key, Option.none)
        ∧ List.lookup key (popKey (cacheSet store key tSet value) key) = Option.none) := by
  constructor
  · intro hlt
    simp [cacheGet, lookup_cacheSet, not_le.mpr hlt]
  · intro hge
    refine ⟨by simp [cacheGet, lookup_cacheSet, hge], ?_⟩
    exact lookup_popKey _ _ (nodup_keys_cacheSet store key tSet value hnd)

/-- C9 witness: with the 15-minute TTL of the source, a value set at
time 0 is returned at time 899 and evicted as a miss at time 901. -/
theorem cache_ttl_witness :
    cacheGet 900 (cacheSet ([] : List (String × CacheEntry ℕ)) "k" 0 7) "k" 899
        = (cacheSet ([] : List (String × CacheEntry ℕ)) "k" 0 7, some 7)
    ∧ cacheGet 900 (cacheSet ([] : List (String × CacheEntry ℕ)) "k" 0 7) "k" 901
        = (popKey (cacheSet ([] : List (String × CacheEntry ℕ)) "k" 0 7) "k", Option.none) :=
  ⟨(cache_ttl_spec [] "k" 0 899 900 7 (by simp)).1 (by norm_num),
   ((cache_ttl_spec [] "k" 0 901 900 7 (by simp)).2 (by norm_num)).1⟩


/-- C8: the fixed-window rate limiter admits with a fresh count-1 bucket
when no bucket exists or the window has elapsed
(`now - windowStart >= windowSeconds`); otherwise it increments the
count and rejects exactly when the post-increment count exceeds the
configured maximum, with retry-after `max(1, floor(windowSeconds -
(now - windowStart)))`; and with max 3 and a 60-second window, of four
requests within 10 seconds under one key the first three are admitted
and the fourth is rejected with a retry-after between 50 and 60. -/
theorem rate_limit_spec :
    (∀ (maxRequests : ℕ) (windowSeconds : ℚ) (buckets : List (String × RateBucket))
        (key : String) (now : ℚ),
      List.lookup key buckets = Option.none →
        enforceRateLimit maxRequests windowSeconds buckets key now
          = (setBucket buckets key ⟨now, 1⟩, .admitted))
    ∧ (∀ (maxRequests : ℕ) (windowSeconds : ℚ) (buckets : List (String × RateBucket))
        (key : String) (now : ℚ) (b : RateBucket),
      List.lookup key buckets = some b → windowSeconds ≤ now - b.windowStart →
        enforceRateLimit maxRequests windowSeconds buckets key now
          = (setBucket buckets key ⟨now, 1⟩, .admitted))
    ∧ (∀ (maxRequests : ℕ) (windowSeconds : ℚ) (buckets : List (String × RateBucket))
        (key : String) (now : ℚ) (b : RateBucket),
      List.lookup key buckets = some b → now - b.windowStart < windowSeconds →
        enforceRateLimit maxRequests windowSeconds buckets key now
          = (setBucket buckets key ⟨b.windowStart, b.count + 1⟩,
             if maxRequests < b.count + 1 then
               .rejected (max 1 ⌊windowSeconds - (now - b.windowStart)⌋)
             else .admitted))
    ∧ (∀ (key : String) (t1 t2 t3 t4 : ℚ),
        t1 ≤ t2 → t2 ≤ t3 → t3 ≤ t4 → t4 - t1 ≤ 10 →
        let r1 := enforceRateLimit 3 60 [] key t1
        let r2 := enforceRateLimit 3 60 r1.1 key t2
        let r3 := enforceRateLimit 3 60 r2.1 key t3
        let r4 := enforceRateLimit 3 60 r3.1 key t4
        r1.2 = .admitted ∧ r2.2 = .admitted ∧ r3.2 = .admitted
          ∧ ∃ ra : ℤ, r4.2 = .rejected ra ∧ 50 ≤ ra ∧ ra ≤ 60) := by
  refine ⟨?_, ?_, ?_, ?_⟩
  · intro mx w buckets key now hnone
    simp [enforceRateLimit, hnone]
  · intro mx w buckets key now b hsome helapsed
    simp [enforceRateLimit, hsome, helapsed]
  · intro mx w buckets key now b hsome hin
    simp only [enforceRateLimit, hsome, if_neg (not_le.mpr hin)]
    by_cases hc : mx < b.count + 1 <;> simp [hc]
  · intro key t1 t2 t3 t4 h12 h23 h34 h41
    have h21 : ¬ (60 : ℚ) ≤ t2 - t1 := by nlinarith
    have h31 : ¬ (60 : ℚ) ≤ t3 - t1 := by nlinarith
    have h41a : ¬ (60 : ℚ) ≤ t4 - t1 := by nlinarith
    have e1 : enforceRateLimit 3 60 [] key t1 = ([(key, ⟨t1, 1⟩)], .admitted) := by
      simp [enforceRateLimit, setBucket, List.lookup]
    have e2 : enforceRateLimit 3 60 [(key, ⟨t1, 1⟩)] key t2 = ([(key, ⟨t1, 2⟩)], .admitted) := by
      simp [enforceRateLimit, setBucket, List.lookup, h21]
    have e3 : enforceRateLimit 3 60 [(key, ⟨t1, 2⟩)] key t3 = ([(key, ⟨t1, 3⟩)], .admitted) := by
      simp [enforceRateLimit, setBucket, List.lookup, h31]
    have e4 : enforceRateLimit 3 60 [(key, ⟨t1, 3⟩)] key t4
        = ([(key, ⟨t1, 4⟩)], .rejected (max 1 ⌊(60 : ℚ) - (t4 - t1)⌋)) := by
      simp [enforceRateLimit, setBucket, List.lookup, h41a]
    have hra1 : (50 : ℤ) ≤ ⌊(60 : ℚ) - (t4 - t1)⌋ := by
      rw [Int.le_floor]
      push_cast
      linarith
    have hra2 : ⌊(60 : ℚ) - (t4 - t1)⌋ ≤ 60 := by
      have h0 : (0 : ℚ) ≤ t4 - t1 := by linarith
      calc ⌊(60 : ℚ) - (t4 - t1)⌋ ≤ ⌊(60 : ℚ)⌋ := Int.floor_le_floor (by linarith)
        _ = 60 := by norm_num
    have hmax : max 1 ⌊(60 : ℚ) - (t4 - t1)⌋ = ⌊(60 : ℚ) - (t4 - t1)⌋ :=
      max_eq_right (by linarith)
    simp only [e1, e2, e3, e4]
    refine ⟨trivial, trivial, trivial, ⟨⌊(60 : ℚ) - (t4 - t1)⌋, by rw [hmax], hra1, hra2⟩⟩

/-- C8 witness: the four-request scenario at times 0, 2, 5, 9 under one
key, starting from an empty bucket map. -/
theorem rate_limit_witness :
    let r1 := enforceRateLimit 3 60 [] "c" (0 : ℚ)
    let r2 := enforceRateLimit 3 60 r1.1 "c" 2
    let r3 := enforceRateLimit 3 60 r2.1 "c" 5
    let r4 := enforceRateLimit 3 60 r3.1 "c" 9
    r1.2 = .admitted ∧ r2.2 = .admitted ∧ r3.2 = .admitted
      ∧ ∃ ra : ℤ, r4.2 = .rejected ra ∧ 50 ≤ ra ∧ ra ≤ 60 :=
  rate_limit_spec.2.2.2 "c" 0 2 5 9 (by norm_num) (by norm_num) (by norm_num) (by norm_num)


/-- C10: at the indicators endpoint an empty or absent requested list is
not an error and defaults to computing all five supported indicators
`sma20, ema50, rsi14, macd, bb20`; a non-empty request containing any
unsupported name is rejected as a caller input error (the handler
returns 400 and never reaches the computation). -/
theorem indicators_param_spec (param : Option String) :
    (requestedOf param = [] →
      parseIndicatorsParam param = .ok ["sma20", "ema50", "rsi14", "macd", "bb20"])
    ∧ (requestedOf param ≠ [] → (∀ x ∈ requestedOf param, x ∈ allowedIndicators) →
      parseIndicatorsParam param = .ok (requestedOf param))
    ∧ ((∃ x ∈ requestedOf param, x ∉ allowedIndicators) →
      ∃ invalid, invalid ≠ [] ∧ parseIndicatorsParam param = .error invalid
        ∧ ∀ x ∈ invalid, x ∉ allowedIndicators ∧ x ∈ requestedOf param) := by
  refine ⟨?_, ?_, ?_⟩
  · intro hempty
    simp [parseIndicatorsParam, hempty, defaultIndicators]
  · intro hne hall
    have hinv : (requestedOf param).filter (fun s => ¬ allowedIndicators.contains s) = [] := by
      rw [List.filter_eq_nil_iff]
      intro x hx
      simpa using hall x hx
    unfold parseIndicatorsParam
    simp only [hinv]
    simp [hne]
  · intro hex
    obtain ⟨x, hx, hxna⟩ := hex
    have hxin : x ∈ (requestedOf param).filter (fun s => ¬ allowedIndicators.contains s) :=
      List.mem_filter.mpr ⟨hx, by simpa using hxna⟩
    have hne2 : (requestedOf param).filter (fun s => ¬ allowedIndicators.contains s) ≠ [] := by
      intro h0
      rw [h0] at hxin
      simp at hxin
    refine ⟨(requestedOf param).filter (fun s => ¬ allowedIndicators.contains s), hne2, ?_, ?_⟩
    · unfold parseIndicatorsParam
      dsimp only
      rw [if_pos hne2]
    · intro y hy
      have hmf := List.mem_filter.mp hy
      exact ⟨by simpa using hmf.2, hmf.1⟩

/-- C10 witness: an absent parameter defaults to the five indicators; the
request `sma20,BOGUS` is rejected with its invalid (lower-cased) name. -/
theorem indicators_param_witness :
    requestedOf Option.none = []
    ∧ parseIndicatorsParam Option.none = .ok ["sma20", "ema50", "rsi14", "macd", "bb20"]
    ∧ (∃ invalid, invalid ≠ []
        ∧ parseIndicatorsParam (some "sma20,BOGUS") = .error invalid
        ∧ ∀ x ∈ invalid, x ∉ allowedIndicators ∧ x ∈ requestedOf (some "sma20,BOGUS")) :=
  ⟨by decide, (indicators_param_spec Option.none).1 (by decide),
   (indicators_param_spec (some "sma20,BOGUS")).2.2 ⟨"bogus", by decide, by decide⟩⟩


/-- Indexing a map over a range. -/
lemma getD_range_map {β : Type} (f : ℕ → β) (m j : ℕ) (d : β) (h : j < m) :
    ((List.range m).map f).getD j d = f j := by
  rw [List.getD_eq_getElem?_getD, List.getElem?_map, List.getElem?_range h]
  rfl

/-- Window sum shift: adding the incoming and removing the outgoing
element advances the window by one. -/
lemma window_sum_shift (values : List ℚ) (period k : ℕ) (h : period + k < values.length) :
    ((values.drop (k + 1)).take period).sum
      = ((values.drop k).take period).sum + values.getD (period + k) 0 - values.getD k 0 := by
  have hk : k < values.length := by omega
  have hpk : period + k < values.length := h
  have hdk : values.drop k = values.getD k 0 :: values.drop (k + 1) := by
    rw [List.drop_eq_getElem_cons hk, List.getD_eq_getElem?_getD, List.getElem?_eq_getElem hk]
    rfl
  have htakeA : (values.drop k).take (period + 1)
      = (values.drop k).take period ++ [values.getD (period + k) 0] := by
    rw [List.take_succ]
    congr 1
    have hlen : period < (values.drop k).length := by simp; omega
    rw [List.getElem?_eq_getElem hlen]
    simp [List.getElem_drop, List.getD_eq_getElem?_getD, List.getElem?_eq_getElem hpk]
    congr 1
    omega
  have htakeB : (values.drop k).take (period + 1)
      = values.getD k 0 :: (values.drop (k + 1)).take period := by
    rw [hdk]
    rfl
  have hsum : ((values.drop k).take period).sum + values.getD (period + k) 0
      = values.getD k 0 + ((values.drop (k + 1)).take period).sum := by
    have hA := congrArg List.sum htakeA
    have hB := congrArg List.sum htakeB
    rw [hA] at hB
    simpa using hB
  linarith


lemma safeJsonNumber_fin (q : ℚ) : safeJsonNumber (.fin q) = some (.fin q) := rfl

lemma drop_getD_cons {β : Type} [Inhabited β] (l : List β) (d : β) (n : ℕ) (h : n < l.length) :
    l.drop n = l.getD n d :: l.drop (n + 1) := by
  rw [List.drop_eq_getElem_cons h, List.getD_eq_getElem?_getD, List.getElem?_eq_getElem h]
  rfl

/-- The running-sum loop of `_sma`, characterized: after the seed, point
`j` of the remaining output carries `times[period + k + j]` and the mean
of the window ending there. -/
lemma smaLoop_eq (values : List ℚ) (times : List ℤ) (period : ℕ)
    (hlen : times.length = values.length) :
    ∀ n k, values.length - (period + k) = n →
    smaLoop period ((values.drop (period + k)).zip ((values.drop k).zip (times.drop (period + k))))
        (((values.drop k).take period).sum)
      = (List.range n).map (fun j =>
          { time := times.getD (period + k + j) 0,
            value := some (.fin
              (((values.drop (k + j + 1)).take period).sum / (period : ℚ))) }) := by
  intro n
  induction n with
  | zero =>
    intro k hk
    have hnil : values.drop (period + k) = [] := List.drop_eq_nil_of_le (by omega)
    simp [hnil, smaLoop]
  | succ n ih =>
    intro k hk
    have hpk : period + k < values.length := by omega
    have hk2 : k < values.length := by omega
    have hpkt : period + k < times.length := by omega
    have hzip : (values.drop (period + k)).zip ((values.drop k).zip (times.drop (period + k)))
        = (values.getD (period + k) 0, values.getD k 0, times.getD (period + k) 0)
          :: ((values.drop (period + k + 1)).zip
              ((values.drop (k + 1)).zip (times.drop (period + k + 1)))) := by
      rw [drop_getD_cons values (0 : ℚ) (period + k) hpk, drop_getD_cons values (0 : ℚ) k hk2,
        drop_getD_cons times (0 : ℤ) (period + k) hpkt]
      rfl
    rw [hzip]
    simp only [smaLoop, safeJsonNumber_fin]
    rw [← window_sum_shift values period k hpk]
    have ihk := ih (k + 1) (by omega)
    have harg : period + (k + 1) = period + k + 1 := rfl
    rw [harg] at ihk
    rw [ihk, List.range_succ_eq_map, List.map_cons, List.map_map]
    rw [List.cons.injEq]
    constructor
    · simp
    · simp only [List.map_inj_left, Function.comp_apply]
      intro a ha
      have h1 : period + k + 1 + a = period + k + (a + 1) := by omega
      have h2 : k + 1 + a + 1 = k + (a + 1) + 1 := by omega
      rw [h1, h2]
  

/-- C5: for inputs of length at least `period`, `_sma` returns exactly
`len - period + 1` points; point `i` carries the input time at index
`period - 1 + i` and the arithmetic mean of the `period` consecutive
closes ending at that index; shorter inputs give an empty output. -/
theorem sma_spec (values : List ℚ) (times : List ℤ) (period : ℕ)
    (hp : 0 < period) (hlen : times.length = values.length) :
    (values.length < period → sma values period times = [])
    ∧ (period ≤ values.length →
      (sma values period times).length = values.length - period + 1
      ∧ ∀ i < values.length - period + 1,
        (sma values period times).getD i ⟨0, Option.none⟩ =
          { time := times.getD (period - 1 + i) 0,
            value := some (.fin (((values.drop i).take period).sum / (period : ℚ))) }) := by
  constructor
  · intro hshort
    simp [sma, hshort]
  · intro hlong
    have hnl : ¬ values.length < period := not_lt.mpr hlong
    have hloop := smaLoop_eq values times period hlen (values.length - period) 0 (by omega)
    simp only [Nat.add_zero, Nat.zero_add, List.drop_zero] at hloop
    have hsma : sma values period times
        = { time := times.getD (period - 1) 0,
            value := some (.fin ((values.take period).sum / (period : ℚ))) }
          :: (List.range (values.length - period)).map (fun j =>
            { time := times.getD (period + j) 0,
              value := some (.fin (((values.drop (j + 1)).take period).sum / (period : ℚ))) }) := by
      unfold sma
      rw [if_neg hnl]
      simp only [safeJsonNumber_fin]
      rw [hloop]
    rw [hsma]
    constructor
    · simp
    · intro i hi
      cases i with
      | zero =>
        simp
      | succ j =>
        have hj : j < values.length - period := by omega
        simp only [List.getD_cons_succ]
        rw [getD_range_map _ _ _ _ hj]
        have h1 : period + j = period - 1 + (j + 1) := by omega
        rw [h1]

/-- C5 witness: SMA(2) of `[1, 2, 3, 4, 5]` has 4 points, and point 1 is
the mean `5/2` of the window `[2, 3]` at time index 2. -/
theorem sma_witness :
    (0 : ℕ) < 2 ∧ ([10, 11, 12, 13, 14] : List ℤ).length = ([1, 2, 3, 4, 5] : List ℚ).length
    ∧ (sma [1, 2, 3, 4, 5] 2 [10, 11, 12, 13, 14]).length = 4
    ∧ (sma [1, 2, 3, 4, 5] 2 [10, 11, 12, 13, 14]).getD 1 ⟨0, Option.none⟩
        = { time := 12, value := some (.fin (5 / 2)) } := by
  have h := sma_spec [1, 2, 3, 4, 5] [10, 11, 12, 13, 14] 2 (by norm_num) (by simp)
  have h2 := (h.2 (by norm_num)).1
  have h3 := (h.2 (by norm_num)).2 1 (by norm_num)
  refine ⟨by norm_num, by simp, by simpa using h2, ?_⟩
  have h4 : ((2 : ℚ) + 3) / 2 = 5 / 2 := by norm_num
  simpa [h4] using h3


/-- When the smoothed average loss is zero, the infinity branch of the RS
ratio collapses the RSI to exactly 100 in float arithmetic. -/
lemma rsiFromAvgs_zero_loss (g : ℚ) : rsiFromAvgs g 0 = .fin 100 := by
  simp [rsiFromAvgs, pfAdd, pfDiv, pfSub]

/-- With non-negative averages, the RSI value is finite and in [0, 100]. -/
lemma rsiFromAvgs_range (g l : ℚ) (hg : 0 ≤ g) (hl : 0 ≤ l) :
    ∃ q, rsiFromAvgs g l = .fin q ∧ 0 ≤ q ∧ q ≤ 100 := by
  by_cases hl0 : l = 0
  · subst hl0
    exact ⟨100, rsiFromAvgs_zero_loss g, by norm_num, by norm_num⟩
  · have hlpos : 0 < l := lt_of_le_of_ne hl (Ne.symm hl0)
    have hrs : 0 ≤ g / l := div_nonneg hg hl
    have hpos : (0 : ℚ) < 1 + g / l := by linarith
    refine ⟨100 - 100 / (1 + g / l), ?_, ?_, ?_⟩
    · simp only [rsiFromAvgs, if_neg hl0, pfAdd, pfDiv, pfSub, if_neg (ne_of_gt hpos)]
    · have : 100 / (1 + g / l) ≤ 100 := by
        apply div_le_self (by norm_num)
        linarith
      linarith
    · have : 0 ≤ 100 / (1 + g / l) := by positivity
      linarith

/-- The Wilder smoothing loop emits only finite values in [0, 100] and
keeps the averages non-negative. -/
lemma rsiLoop_range (period : ℕ) (hp : 0 < period) :
    ∀ (triples : List (ℚ × ℚ × ℤ)) (ag al : ℚ), 0 ≤ ag → 0 ≤ al →
      (∀ x ∈ triples, 0 ≤ x.1 ∧ 0 ≤ x.2.1) →
      ∀ pt ∈ rsiLoop period triples ag al, ∃ q, pt.value = some (.fin q) ∧ 0 ≤ q ∧ q ≤ 100 := by
  intro triples
  induction triples with
  | nil => intro ag al hag hal htri pt hpt; simp [rsiLoop] at hpt
  | cons x rest ih =>
    intro ag al hag hal htri pt hpt
    obtain ⟨g, l, t⟩ := x
    have hperiod1 : (1 : ℚ) ≤ (period : ℚ) := by exact_mod_cast hp
    have hgl := htri (g, l, t) (List.mem_cons_self _ _)
    have hag2 : 0 ≤ (ag * ((period : ℚ) - 1) + g) / (period : ℚ) := by
      apply div_nonneg _ (by linarith)
      have : 0 ≤ ag * ((period : ℚ) - 1) := mul_nonneg hag (by linarith)
      linarith [hgl.1]
    have hal2 : 0 ≤ (al * ((period : ℚ) - 1) + l) / (period : ℚ) := by
      apply div_nonneg _ (by linarith)
      have : 0 ≤ al * ((period : ℚ) - 1) := mul_nonneg hal (by linarith)
      linarith [hgl.2]
    simp only [rsiLoop, List.mem_cons] at hpt
    rcases hpt with hpt | hpt
    · obtain ⟨q, hq, hq0, hq100⟩ := rsiFromAvgs_range _ _ hag2 hal2
      refine ⟨q, ?_, hq0, hq100⟩
      rw [hpt]
      simp [hq, safeJsonNumber, PyFloat.isFinite]
    · exact ih _ _ hag2 hal2 (fun y hy => htri y (List.mem_cons_of_mem _ hy)) pt hpt


/-- Per-step gains are non-negative. -/
lemma mem_map_max_nonneg (l : List ℚ) : ∀ x ∈ l.map (fun d => max d 0), 0 ≤ x := by
  intro x hx
  obtain ⟨d, _, rfl⟩ := List.mem_map.mp hx
  exact le_max_right d 0

/-- Per-step losses are non-negative. -/
lemma mem_map_absmin_nonneg (l : List ℚ) : ∀ x ∈ l.map (fun d => |min d 0|), 0 ≤ x := by
  intro x hx
  obtain ⟨d, _, rfl⟩ := List.mem_map.mp hx
  exact abs_nonneg _

/-- Seed averages of non-negative step values are non-negative. -/
lemma sum_take_div_nonneg (l : List ℚ) (h : ∀ x ∈ l, 0 ≤ x) (period : ℕ) :
    0 ≤ (l.take period).sum / (period : ℚ) :=
  div_nonneg (List.sum_nonneg fun x hx => h x (List.mem_of_mem_take hx)) (Nat.cast_nonneg period)

/-- C4: `_rsi_wilder` returns the empty output when the input has
`period` or fewer observations; every emitted value is finite and lies in
[0, 100]; the first emitted point carries the input timestamp at index
`period`; and whenever the smoothed average loss is 0 the computed value
equals exactly 100. -/
theorem rsi_spec (values : List ℚ) (times : List ℤ) (period : ℕ)
    (hp : 0 < period) (_hlen : times.length = values.length) :
    (values.length ≤ period → rsiWilder values period times = [])
    ∧ (∀ pt ∈ rsiWilder values period times,
        ∃ q, pt.value = some (.fin q) ∧ 0 ≤ q ∧ q ≤ 100)
    ∧ (period < values.length → ∃ pt rest, rsiWilder values period times = pt :: rest
        ∧ pt.time = times.getD period 0)
    ∧ (∀ g : ℚ, rsiFromAvgs g 0 = .fin 100) := by
  refine ⟨?_, ?_, ?_, rsiFromAvgs_zero_loss⟩
  · intro hshort
    simp [rsiWilder, hshort]
  · intro pt hpt
    by_cases hle : values.length ≤ period
    · simp [rsiWilder, hle] at hpt
    · have hnle := hle
      unfold rsiWilder at hpt
      rw [if_neg hnle] at hpt
      simp only [List.mem_cons] at hpt
      have hgainsge := mem_map_max_nonneg (List.zipWith (fun a b => b - a) values (values.drop 1))
      have hlossge := mem_map_absmin_nonneg (List.zipWith (fun a b => b - a) values (values.drop 1))
      have hag : 0 ≤ ((List.zipWith (fun a b => b - a) values (values.drop 1)).map
          (fun d => max d 0) |>.take period).sum / (period : ℚ) :=
        sum_take_div_nonneg _ hgainsge period
      have hal : 0 ≤ ((List.zipWith (fun a b => b - a) values (values.drop 1)).map
          (fun d => |min d 0|) |>.take period).sum / (period : ℚ) :=
        sum_take_div_nonneg _ hlossge period
      rcases hpt with hpt | hpt
      · obtain ⟨q, hq, hq0, hq100⟩ := rsiFromAvgs_range _ _ hag hal
        refine ⟨q, ?_, hq0, hq100⟩
        rw [hpt]
        dsimp only
        rw [hq, safeJsonNumber_fin]
      · refine rsiLoop_range period hp _ _ _ hag hal ?_ pt hpt
        intro x hx
        obtain ⟨hx1, hx2⟩ := List.of_mem_zip hx
        obtain ⟨hx21, _⟩ := List.of_mem_zip hx2
        exact ⟨hgainsge _ (List.mem_of_mem_drop hx1), hlossge _ (List.mem_of_mem_drop hx21)⟩
  · intro hlong
    have hchar : rsiWilder values period times
        = { time := times.getD period 0,
            value := safeJsonNumber (rsiFromAvgs
              (((List.zipWith (fun a b => b - a) values (values.drop 1)).map
                  (fun d => max d 0) |>.take period).sum / (period : ℚ))
              (((List.zipWith (fun a b => b - a) values (values.drop 1)).map
                  (fun d => |min d 0|) |>.take period).sum / (period : ℚ))) }
          :: rsiLoop period
            ((((List.zipWith (fun a b => b - a) values (values.drop 1)).map
                (fun d => max d 0)).drop period).zip
              ((((List.zipWith (fun a b => b - a) values (values.drop 1)).map
                  (fun d => |min d 0|)).drop period).zip (times.drop (period + 1))))
            (((List.zipWith (fun a b => b - a) values (values.drop 1)).map
                (fun d => max d 0) |>.take period).sum / (period : ℚ))
            (((List.zipWith (fun a b => b - a) values (values.drop 1)).map
                (fun d => |min d 0|) |>.take period).sum / (period : ℚ)) := by
      unfold rsiWilder
      rw [if_neg (not_le.mpr hlong)]
    exact ⟨_, _, hchar, rfl⟩

/-- C4 witness: RSI(2) of `[1, 2, 1, 3]` — all values in range, first
point at time index 2. -/
theorem rsi_witness :
    (0 : ℕ) < 2 ∧ ([0, 1, 2, 3] : List ℤ).length = ([1, 2, 1, 3] : List ℚ).length
    ∧ (∀ pt ∈ rsiWilder [1, 2, 1, 3] 2 [0, 1, 2, 3],
        ∃ q, pt.value = some (.fin q) ∧ 0 ≤ q ∧ q ≤ 100)
    ∧ (∃ pt rest, rsiWilder [1, 2, 1, 3] 2 [0, 1, 2, 3] = pt :: rest ∧ pt.time = 2) := by
  have h := rsi_spec [1, 2, 1, 3] [0, 1, 2, 3] 2 (by norm_num) (by simp)
  refine ⟨by norm_num, by simp, h.2.1, ?_⟩
  obtain ⟨pt, rest, heq, htime⟩ := h.2.2.1 (by norm_num)
  exact ⟨pt, rest, heq, by simpa using htime⟩


/-- The EMA recurrence emits one value per consumed price. -/
lemma emaValsLoop_length (period : ℕ) (l : List ℚ) :
    ∀ prev, (emaValsLoop period l prev).length = l.length := by
  induction l with
  | nil => intro prev; rfl
  | cons x rest ih => intro prev; simp [emaValsLoop, ih]

/-- `_ema_values_only` emits `len - period + 1` values on sufficient
input. -/
lemma emaValuesOnly_length (values : List ℚ) (period : ℕ) (h : period ≤ values.length) :
    (emaValuesOnly values period).1.length = values.length - period + 1 := by
  unfold emaValuesOnly
  rw [if_neg (not_lt.mpr h)]
  simp [emaValsLoop_length]

/-- The start index returned by `_ema_values_only` is `period - 1`. -/
lemma emaValuesOnly_snd (values : List ℚ) (period : ℕ) :
    (emaValuesOnly values period).2 = period - 1 := by
  unfold emaValuesOnly
  split <;> rfl

/-- `_ema_values_only` is empty exactly on insufficient input. -/
lemma emaValuesOnly_eq_nil_iff (values : List ℚ) (period : ℕ) :
    (emaValuesOnly values period).1 = [] ↔ values.length < period := by
  unfold emaValuesOnly
  split
  · next h => simpa using h
  · next h => simpa using not_lt.mp h

/-- C3 amended: `_macd` returns all three series empty whenever the
input has fewer than 34 points (too short for either EMA or for the
EMA(9) signal of the 25-aligned MACD line); otherwise the returned MACD
series is the pointwise difference EMA(12) − EMA(26) *trimmed to the
signal's defined region*: point `i` carries the input time at index
`33 + i` (not 25 + i) and the MACD-line value at aligned position
`8 + i`, the signal is the EMA(9) of the full MACD line, and the
histogram is MACD − signal at each returned point. -/
theorem macd_spec (values : List ℚ) (times : List ℤ) (_hlen : times.length = values.length) :
    (values.length < 34 → macdCalc values times = ⟨[], [], []⟩)
    ∧ (34 ≤ values.length →
      macdCalc values times =
        { macd := (List.range (values.length - 33)).map (fun i =>
            { time := times.getD (33 + i) 0, value := some (.fin (macdLine values (8 + i))) }),
          signal := (List.range (values.length - 33)).map (fun i =>
            { time := times.getD (33 + i) 0,
              value := some (.fin ((emaValuesOnly
                ((List.range (values.length - 25)).map (fun j => macdLine values j)) 9).1.getD i 0)) }),
          hist := (List.range (values.length - 33)).map (fun i =>
            { time := times.getD (33 + i) 0,
              value := some (.fin (macdLine values (8 + i) - (emaValuesOnly
                ((List.range (values.length - 25)).map (fun j => macdLine values j))
                  9).1.getD i 0)) }) }) := by
  have e3 : ((12 - 1 : ℕ) ⊔ (26 - 1)) = 25 := by decide
  have e4 : (25 - (12 - 1) : ℕ) = 14 := by decide
  have e5 : (25 - (26 - 1) : ℕ) = 0 := by decide
  have e6 : (9 - 1 : ℕ) = 8 := by decide
  constructor
  · intro hshort
    unfold macdCalc
    by_cases h26 : values.length < 26
    · rw [if_pos (Or.inr ((emaValuesOnly_eq_nil_iff values 26).mpr h26))]
    · rw [if_neg]
      · simp only [emaValuesOnly_snd, emaValuesOnly_length values 12 (by omega),
          emaValuesOnly_length values 26 (by omega), e3, e4, e5, e6, Nat.zero_add]
        have f1 : values.length - 12 + 1 - 14 = values.length - 25 := by omega
        have f2 : values.length - 26 + 1 - 0 = values.length - 25 := by omega
        simp only [f1, f2, min_self]
        rw [if_neg (by omega : ¬ values.length - 25 = 0)]
        rw [if_pos]
        rw [emaValuesOnly_eq_nil_iff]
        simp only [List.length_map, List.length_range]
        omega
      · push_neg
        refine ⟨?_, ?_⟩ <;> rw [Ne, emaValuesOnly_eq_nil_iff] <;> omega
  · intro hlong
    unfold macdCalc
    rw [if_neg (by
      push_neg
      refine ⟨?_, ?_⟩ <;> rw [Ne, emaValuesOnly_eq_nil_iff] <;> omega)]
    simp only [emaValuesOnly_snd, emaValuesOnly_length values 12 (by omega),
      emaValuesOnly_length values 26 (by omega), e3, e4, e5, e6, Nat.zero_add]
    have f1 : values.length - 12 + 1 - 14 = values.length - 25 := by omega
    have f2 : values.length - 26 + 1 - 0 = values.length - 25 := by omega
    simp only [f1, f2, min_self]
    rw [if_neg (by omega : ¬ values.length - 25 = 0)]
    have hsig : ¬ (emaValuesOnly ((List.range (values.length - 25)).map (fun i =>
        (emaValuesOnly values 12).1.getD (14 + i) 0 - (emaValuesOnly values 26).1.getD i 0)) 9).1
          = [] := by
      rw [emaValuesOnly_eq_nil_iff]
      simp only [List.length_map, List.length_range]
      omega
    rw [if_neg hsig]
    simp only [macdLine]
    have hmaplen : ((List.range (values.length - 25)).map (fun i =>
        (emaValuesOnly values 12).1.getD (14 + i) 0 - (emaValuesOnly values 26).1.getD i 0)).length
        = values.length - 25 := by simp
    have hlen9 : (emaValuesOnly ((List.range (values.length - 25)).map (fun i =>
        (emaValuesOnly values 12).1.getD (14 + i) 0 - (emaValuesOnly values 26).1.getD i 0))
          9).1.length = values.length - 33 := by
      rw [emaValuesOnly_length _ 9 (by rw [hmaplen]; omega), hmaplen]
      omega
    rw [hlen9]
    have ht : ∀ i < values.length - 33,
        (List.map (fun i => times.getD (25 + i) 0) (List.range (values.length - 25))).getD (i + 8) 0
          = times.getD (33 + i) 0 := by
      intro i hi
      rw [getD_range_map _ _ _ _ (by omega)]
      have haux : 25 + (i + 8) = 33 + i := by omega
      rw [haux]
    have hv : ∀ i < values.length - 33,
        (List.map (fun i =>
            (emaValuesOnly values 12).1.getD (14 + i) 0 - (emaValuesOnly values 26).1.getD i 0)
          (List.range (values.length - 25))).getD (i + 8) 0
          = (emaValuesOnly values 12).1.getD (14 + (8 + i)) 0
            - (emaValuesOnly values 26).1.getD (8 + i) 0 := by
      intro i hi
      rw [getD_range_map _ _ _ _ (by omega)]
      rw [show i + 8 = 8 + i from Nat.add_comm i 8]
    congr 1
    · apply List.map_congr_left
      intro i hi
      have hi2 := List.mem_range.mp hi
      simp only [safeJsonNumber_fin]
      rw [ht i hi2, hv i hi2]
    · apply List.map_congr_left
      intro i hi
      have hi2 := List.mem_range.mp hi
      simp only [safeJsonNumber_fin]
      rw [ht i hi2]
    · apply List.map_congr_left
      intro i hi
      have hi2 := List.mem_range.mp hi
      simp only [safeJsonNumber_fin]
      rw [ht i hi2, hv i hi2]


/-- C3 counterexample: on a 34-point input the returned MACD series is
non-empty and its first point carries the input time at index 33, not
the claimed index 25. -/
theorem macd_first_point_not_at_25 :
    (macdCalc (List.replicate 34 (1 : ℚ)) ((List.range 34).map (fun i => (i : ℤ)))).macd ≠ []
    ∧ ((macdCalc (List.replicate 34 (1 : ℚ)) ((List.range 34).map (fun i => (i : ℤ)))).macd.getD 0
        ⟨0, Option.none⟩).time = 33
    ∧ ((List.range 34).map (fun i => (i : ℤ))).getD 25 0 = 25
    ∧ (33 : ℤ) ≠ 25 := by
  refine ⟨by decide, by decide, by decide, by decide⟩

/-- C3 witness: the amended characterization instantiated on the
34-point all-ones input. -/
theorem macd_spec_witness :
    ((List.range 34).map (fun i => (i : ℤ))).length = (List.replicate 34 (1 : ℚ)).length
    ∧ (34 ≤ (List.replicate 34 (1 : ℚ)).length →
      macdCalc (List.replicate 34 (1 : ℚ)) ((List.range 34).map (fun i => (i : ℤ))) =
        { macd := (List.range ((List.replicate 34 (1 : ℚ)).length - 33)).map (fun i =>
            { time := ((List.range 34).map (fun i => (i : ℤ))).getD (33 + i) 0,
              value := some (.fin (macdLine (List.replicate 34 (1 : ℚ)) (8 + i))) }),
          signal := (List.range ((List.replicate 34 (1 : ℚ)).length - 33)).map (fun i =>
            { time := ((List.range 34).map (fun i => (i : ℤ))).getD (33 + i) 0,
              value := some (.fin ((emaValuesOnly
                ((List.range ((List.replicate 34 (1 : ℚ)).length - 25)).map
                  (fun j => macdLine (List.replicate 34 (1 : ℚ)) j)) 9).1.getD i 0)) }),
          hist := (List.range ((List.replicate 34 (1 : ℚ)).length - 33)).map (fun i =>
            { time := ((List.range 34).map (fun i => (i : ℤ))).getD (33 + i) 0,
              value := some (.fin (macdLine (List.replicate 34 (1 : ℚ)) (8 + i) - (emaValuesOnly
                ((List.range ((List.replicate 34 (1 : ℚ)).length - 25)).map
                  (fun j => macdLine (List.replicate 34 (1 : ℚ)) j)) 9).1.getD i 0)) }) }) :=
  ⟨by rfl, (macd_spec (List.replicate 34 (1 : ℚ)) ((List.range 34).map (fun i => (i : ℤ)))
    (by rfl)).2⟩


/-- Whatever `_safe_json_number` lets through as a number is finite. -/
lemma safeJsonNumber_finite {f g : PyFloat} (h : safeJsonNumber f = some g) :
    g.isFinite = true := by
  unfold safeJsonNumber at h
  by_cases hf : f.isFinite
  · rw [if_pos hf] at h
    injection h with h2
    rw [← h2]
    exact hf
  · rw [if_neg hf] at h
    exact absurd h (by simp)

/-- Every SMA loop point value passes through `_safe_json_number`. -/
lemma smaLoop_emitted (period : ℕ) :
    ∀ (l : List (ℚ × ℚ × ℤ)) (ws : ℚ) (pt : IndicatorPoint), pt ∈ smaLoop period l ws →
      ∃ f0, pt.value = safeJsonNumber f0 := by
  intro l
  induction l with
  | nil => intro ws pt hpt; simp [smaLoop] at hpt
  | cons x rest ih =>
    intro ws pt hpt
    obtain ⟨a, b, t⟩ := x
    simp only [smaLoop, List.mem_cons] at hpt
    rcases hpt with hpt | hpt
    · exact ⟨_, by rw [hpt]⟩
    · exact ih _ pt hpt

/-- Every `_sma` point value passes through `_safe_json_number`. -/
lemma sma_emitted (values : List ℚ) (period : ℕ) (times : List ℤ) :
    ∀ pt ∈ sma values period times, ∃ f0, pt.value = safeJsonNumber f0 := by
  intro pt hpt
  unfold sma at hpt
  split at hpt
  · simp at hpt
  · simp only [List.mem_cons] at hpt
    rcases hpt with hpt | hpt
    · exact ⟨_, by rw [hpt]⟩
    · exact smaLoop_emitted period _ _ pt hpt

/-- Every EMA loop point value passes through `_safe_json_number`. -/
lemma emaLoop_emitted (period : ℕ) :
    ∀ (l : List (ℚ × ℤ)) (prev : ℚ) (pt : IndicatorPoint), pt ∈ emaLoop period l prev →
      ∃ f0, pt.value = safeJsonNumber f0 := by
  intro l
  induction l with
  | nil => intro prev pt hpt; simp [emaLoop] at hpt
  | cons x rest ih =>
    intro prev pt hpt
    obtain ⟨a, t⟩ := x
    simp only [emaLoop, List.mem_cons] at hpt
    rcases hpt with hpt | hpt
    · exact ⟨_, by rw [hpt]⟩
    · exact ih _ pt hpt

/-- Every `_ema` point value passes through `_safe_json_number`. -/
lemma ema_emitted (values : List ℚ) (period : ℕ) (times : List ℤ) :
    ∀ pt ∈ ema values period times, ∃ f0, pt.value = safeJsonNumber f0 := by
  intro pt hpt
  unfold ema at hpt
  split at hpt
  · simp at hpt
  · simp only [List.mem_cons] at hpt
    rcases hpt with hpt | hpt
    · exact ⟨_, by rw [hpt]⟩
    · exact emaLoop_emitted period _ _ pt hpt

/-- Every RSI loop point value passes through `_safe_json_number`. -/
lemma rsiLoop_emitted (period : ℕ) :
    ∀ (l : List (ℚ × ℚ × ℤ)) (ag al : ℚ) (pt : IndicatorPoint), pt ∈ rsiLoop period l ag al →
      ∃ f0, pt.value = safeJsonNumber f0 := by
  intro l
  induction l with
  | nil => intro ag al pt hpt; simp [rsiLoop] at hpt
  | cons x rest ih =>
    intro ag al pt hpt
    obtain ⟨g, lo, t⟩ := x
    simp only [rsiLoop, List.mem_cons] at hpt
    rcases hpt with hpt | hpt
    · exact ⟨_, by rw [hpt]⟩
    · exact ih _ _ pt hpt

/-- Every `_rsi_wilder` point value passes through `_safe_json_number`. -/
lemma rsiWilder_emitted (values : List ℚ) (period : ℕ) (times : List ℤ) :
    ∀ pt ∈ rsiWilder values period times, ∃ f0, pt.value = safeJsonNumber f0 := by
  intro pt hpt
  unfold rsiWilder at hpt
  split at hpt
  · simp at hpt
  · simp only [List.mem_cons] at hpt
    rcases hpt with hpt | hpt
    · exact ⟨_, by rw [hpt]⟩
    · exact rsiLoop_emitted period _ _ _ pt hpt

/-- Every `_macd` point value passes through `_safe_json_number`. -/
lemma macdCalc_emitted (values : List ℚ) (times : List ℤ) :
    ∀ pt ∈ (macdCalc values times).macd ++ (macdCalc values times).signal
        ++ (macdCalc values times).hist,
      ∃ f0, pt.value = safeJsonNumber f0 := by
  intro pt hpt
  unfold macdCalc at hpt
  dsimp only at hpt
  split at hpt
  · simp at hpt
  · split at hpt
    · simp at hpt
    · split at hpt
      · simp at hpt
      · simp only [List.mem_append, List.mem_map, List.mem_range] at hpt
        rcases hpt with (⟨i, _, hpt⟩ | ⟨i, _, hpt⟩) | ⟨i, _, hpt⟩ <;>
          · rw [← hpt]
            dsimp only
            exact ⟨_, rfl⟩

/-- Every `_bollinger` point value passes through `_safe_json_number`. -/
lemma bollinger_emitted (sqrtFn : ℚ → ℚ) (values : List ℚ) (period : ℕ) (k : ℚ)
    (times : List ℤ) :
    ∀ pt ∈ (bollinger sqrtFn values period k times).upper
        ++ (bollinger sqrtFn values period k times).middle
        ++ (bollinger sqrtFn values period k times).lower,
      ∃ f0, pt.value = safeJsonNumber f0 := by
  intro pt hpt
  unfold bollinger at hpt
  dsimp only at hpt
  split at hpt
  · simp at hpt
  · simp only [List.mem_append, List.mem_map, List.mem_range] at hpt
    rcases hpt with (⟨i, _, hpt⟩ | ⟨i, _, hpt⟩) | ⟨i, _, hpt⟩ <;>
      · rw [← hpt]
        dsimp only
        exact ⟨_, rfl⟩

/-- C6: every point value in every series computed by
`_compute_indicator_series` (SMA, EMA, RSI, MACD/signal/histogram,
Bollinger upper/middle/lower) is either the no-value marker or a finite
number — a non-finite float never appears as an emitted value, because
every emission site goes through `_safe_json_number`. -/
theorem no_nonfinite_output (sqrtFn : ℚ → ℚ) (candles : List Candle) (names : List String) :
    ∀ entry ∈ computeIndicatorSeries sqrtFn candles names,
      ∀ pt ∈ outputPoints entry.2, ∀ f, pt.value = some f → f.isFinite = true := by
  intro entry hentry pt hpt f hf
  unfold computeIndicatorSeries at hentry
  rw [List.mem_filterMap] at hentry
  obtain ⟨name, _, hsome⟩ := hentry
  have hemit : ∃ f0, pt.value = safeJsonNumber f0 := by
    by_cases h1 : name = "sma20"
    · rw [if_pos h1] at hsome
      injection hsome with hsome
      rw [← hsome] at hpt
      exact sma_emitted _ _ _ pt hpt
    · rw [if_neg h1] at hsome
      by_cases h2 : name = "ema50"
      · rw [if_pos h2] at hsome
        injection hsome with hsome
        rw [← hsome] at hpt
        exact ema_emitted _ _ _ pt hpt
      · rw [if_neg h2] at hsome
        by_cases h3 : name = "rsi14"
        · rw [if_pos h3] at hsome
          injection hsome with hsome
          rw [← hsome] at hpt
          exact rsiWilder_emitted _ _ _ pt hpt
        · rw [if_neg h3] at hsome
          by_cases h4 : name = "macd"
          · rw [if_pos h4] at hsome
            injection hsome with hsome
            rw [← hsome] at hpt
            exact macdCalc_emitted _ _ pt hpt
          · rw [if_neg h4] at hsome
            by_cases h5 : name = "bb20"
            · rw [if_pos h5] at hsome
              injection hsome with hsome
              rw [← hsome] at hpt
              exact bollinger_emitted _ _ _ _ _ pt hpt
            · rw [if_neg h5] at hsome
              exact absurd hsome (by simp)
  obtain ⟨f0, hf0⟩ := hemit
  rw [hf0] at hf
  exact safeJsonNumber_finite hf

/-- C6 witness: SMA(20) over twenty constant closes emits the finite
value 2 at time index 19. -/
theorem no_nonfinite_witness :
    (PyFloat.fin 2).isFinite = true := by
  have hser : computeIndicatorSeries (fun q => q)
      [⟨0, 1, 1, 1, 2, 0⟩,
       ⟨1, 1, 1, 1, 2, 0⟩,
       ⟨2, 1, 1, 1, 2, 0⟩,
       ⟨3, 1, 1, 1, 2, 0⟩,
       ⟨4, 1, 1, 1, 2, 0⟩,
       ⟨5, 1, 1, 1, 2, 0⟩,
       ⟨6, 1, 1, 1, 2, 0⟩,
       ⟨7, 1, 1, 1, 2, 0⟩,
       ⟨8, 1, 1, 1, 2, 0⟩,
       ⟨9, 1, 1, 1, 2, 0⟩,
       ⟨10, 1, 1, 1, 2, 0⟩,
       ⟨11, 1, 1, 1, 2, 0⟩,
       ⟨12, 1, 1, 1, 2, 0⟩,
       ⟨13, 1, 1, 1, 2, 0⟩,
       ⟨14, 1, 1, 1, 2, 0⟩,
       ⟨15, 1, 1, 1, 2, 0⟩,
       ⟨16, 1, 1, 1, 2, 0⟩,
       ⟨17, 1, 1, 1, 2, 0⟩,
       ⟨18, 1, 1, 1, 2, 0⟩,
       ⟨19, 1, 1, 1, 2, 0⟩] ["sma20"]
      = [("sma20", .single [{ time := 19, value := some (.fin 2) }])] := by
    norm_num [computeIndicatorSeries, sma, smaLoop, safeJsonNumber, PyFloat.isFinite,
      List.filterMap_cons, List.filterMap_nil]
  exact no_nonfinite_output (fun q => q)
    [⟨0, 1, 1, 1, 2, 0⟩,
       ⟨1, 1, 1, 1, 2, 0⟩,
       ⟨2, 1, 1, 1, 2, 0⟩,
       ⟨3, 1, 1, 1, 2, 0⟩,
       ⟨4, 1, 1, 1, 2, 0⟩,
       ⟨5, 1, 1, 1, 2, 0⟩,
       ⟨6, 1, 1, 1, 2, 0⟩,
       ⟨7, 1, 1, 1, 2, 0⟩,
       ⟨8, 1, 1, 1, 2, 0⟩,
       ⟨9, 1, 1, 1, 2, 0⟩,
       ⟨10, 1, 1, 1, 2, 0⟩,
       ⟨11, 1, 1, 1, 2, 0⟩,
       ⟨12, 1, 1, 1, 2, 0⟩,
       ⟨13, 1, 1, 1, 2, 0⟩,
       ⟨14, 1, 1, 1, 2, 0⟩,
       ⟨15, 1, 1, 1, 2, 0⟩,
       ⟨16, 1, 1, 1, 2, 0⟩,
       ⟨17, 1, 1, 1, 2, 0⟩,
       ⟨18, 1, 1, 1, 2, 0⟩,
       ⟨19, 1, 1, 1, 2, 0⟩] ["sma20"]
    ("sma20", .single [{ time := 19, value := some (.fin 2) }])
    (by rw [hser]; exact List.mem_singleton.mpr rfl)
    { time := 19, value := some (.fin 2) } (by decide) (.fin 2) rfl


/-- The date-string comparator is transitive. -/
lemma dateLe_trans : ∀ (a b c : DocCandle), dateLe a b → dateLe b c → dateLe a c := by
  intro a b c hab hbc
  simp only [dateLe, decide_eq_true_eq] at *
  exact le_trans hab hbc

/-- The date-string comparator is total. -/
lemma dateLe_total : ∀ (a b : DocCandle), dateLe a b || dateLe b a := by
  intro a b
  simp only [dateLe]
  rcases le_total a.date b.date with h | h <;> simp [h]

/-- When no stored candle carries today's date, the find-and-replace
loop appends the new entry at the end. -/
lemma replaceToday_eq_append (t : String) (e : DocCandle) :
    ∀ (l : List DocCandle), (∀ c ∈ l, c.date ≠ t) → replaceToday t e l = l ++ [e] := by
  intro l
  induction l with
  | nil => intro h; rfl
  | cons c rest ih =>
    intro h
    have hc : c.date ≠ t := h c (List.mem_cons_self _ _)
    simp only [replaceToday, if_neg hc, List.cons_append, List.cons.injEq, true_and]
    exact ih (fun x hx => h x (List.mem_cons_of_mem _ hx))

/-- Replacing today-dated candles is the identity when none exists. -/
lemma map_id_of_no_today (t : String) (e : DocCandle) :
    ∀ (l : List DocCandle), (∀ c ∈ l, c.date ≠ t) →
      l.map (fun c => if c.date = t then e else c) = l := by
  intro l h
  have heq : l.map (fun c => if c.date = t then e else c) = l.map (fun c => c) :=
    List.map_congr_left (fun c hc => if_neg (h c hc))
  rw [heq]
  exact List.map_id' l

/-- With distinct dates, replacing the first today-dated candle replaces
the (unique) today-dated candle. -/
lemma replaceToday_eq_map (t : String) (e : DocCandle) :
    ∀ (l : List DocCandle), ((l.map DocCandle.date).Nodup) → (∃ c ∈ l, c.date = t) →
      replaceToday t e l = l.map (fun c => if c.date = t then e else c) := by
  intro l
  induction l with
  | nil => intro _ hex; simp at hex
  | cons c rest ih =>
    intro hnd hex
    simp only [List.map_cons, List.nodup_cons] at hnd
    by_cases hc : c.date = t
    · have hrest : ∀ x ∈ rest, x.date ≠ t := by
        intro x hx hxt
        apply hnd.1
        simpa [hc, hxt] using List.mem_map_of_mem DocCandle.date hx
      simp only [replaceToday, if_pos hc, List.map_cons, if_pos hc, List.cons.injEq, true_and]
      exact (map_id_of_no_today t e rest hrest).symm
    · have hex2 : ∃ x ∈ rest, x.date = t := by
        rcases hex with ⟨x, hx, hxt⟩
        rcases List.mem_cons.mp hx with rfl | hx2
        · exact absurd hxt hc
        · exact ⟨x, hx2, hxt⟩
      simp only [replaceToday, if_neg hc, List.map_cons, List.cons.injEq, true_and]
      exact ih hnd.2 hex2

/-- When the only today-dated candle is already the new entry, the
find-and-replace loop changes nothing. -/
lemma replaceToday_id (t : String) (e : DocCandle) :
    ∀ (l : List DocCandle), (∃ c ∈ l, c.date = t) → (∀ c ∈ l, c.date = t → c = e) →
      replaceToday t e l = l := by
  intro l
  induction l with
  | nil => intro hex _; simp at hex
  | cons c rest ih =>
    intro hex hall
    by_cases hc : c.date = t
    · have he2 : c = e := hall c (List.mem_cons_self _ _) hc
      simp only [replaceToday, if_pos hc]
      rw [he2]
    · have hex2 : ∃ x ∈ rest, x.date = t := by
        rcases hex with ⟨x, hx, hxt⟩
        rcases List.mem_cons.mp hx with rfl | hx2
        · exact absurd hxt hc
        · exact ⟨x, hx2, hxt⟩
      simp only [replaceToday, if_neg hc, List.cons.injEq, true_and]
      exact ih hex2 (fun x hx hxt => hall x (List.mem_cons_of_mem _ hx) hxt)


/-- C7 amended: on a store whose candle list has pairwise-distinct dates
(the invariant the operation itself maintains from an empty store), the
upsert-for-today operation replaces the existing today-dated candle when
one exists and otherwise appends the new one, and afterwards the list is
sorted ascending by date string, has at most one candle per date, and
upserting the same entry again changes nothing. -/
theorem upsert_today_spec (todayStr : String) (e : DocCandle) (candles : List DocCandle)
    (he : e.date = todayStr) (hnd : (candles.map DocCandle.date).Nodup) :
    (upsertToday todayStr e candles).Pairwise (fun a b => a.date ≤ b.date)
    ∧ ((upsertToday todayStr e candles).map DocCandle.date).Nodup
    ∧ upsertToday todayStr e (upsertToday todayStr e candles) = upsertToday todayStr e candles
    ∧ ((∃ c ∈ candles, c.date = todayStr) →
        (upsertToday todayStr e candles).Perm
          (candles.map (fun c => if c.date = todayStr then e else c)))
    ∧ ((∀ c ∈ candles, c.date ≠ todayStr) →
        (upsertToday todayStr e candles).Perm (e :: candles)) := by
  have hsortb : (upsertToday todayStr e candles).Pairwise (fun a b => dateLe a b = true) :=
    List.sorted_mergeSort dateLe_trans dateLe_total (replaceToday todayStr e candles)
  have hperm : (upsertToday todayStr e candles).Perm (replaceToday todayStr e candles) :=
    List.mergeSort_perm (replaceToday todayStr e candles) dateLe
  have hmapdate : ∀ (hex : ∃ c ∈ candles, c.date = todayStr),
      (candles.map (fun c => if c.date = todayStr then e else c)).map DocCandle.date
        = candles.map DocCandle.date := by
    intro _
    rw [List.map_map]
    apply List.map_congr_left
    intro c hc
    by_cases h : c.date = todayStr <;> simp [Function.comp, h, he]
  have hndR : ((replaceToday todayStr e candles).map DocCandle.date).Nodup := by
    by_cases hex : ∃ c ∈ candles, c.date = todayStr
    · rw [replaceToday_eq_map todayStr e candles hnd hex, hmapdate hex]
      exact hnd
    · push_neg at hex
      rw [replaceToday_eq_append todayStr e candles hex, List.map_append]
      rw [List.nodup_append]
      refine ⟨hnd, by simp, ?_⟩
      intro d hd
      obtain ⟨c, hc, rfl⟩ := List.mem_map.mp hd
      simp only [List.map_cons, List.map_nil, List.mem_singleton]
      intro hcd
      exact hex c hc (hcd.trans he)
  have htodayAll : ∀ c ∈ upsertToday todayStr e candles, c.date = todayStr → c = e := by
    intro c hcr hcd
    have hc2 : c ∈ replaceToday todayStr e candles := hperm.mem_iff.mp hcr
    by_cases hex : ∃ x ∈ candles, x.date = todayStr
    · rw [replaceToday_eq_map todayStr e candles hnd hex] at hc2
      obtain ⟨x, hx, hxeq⟩ := List.mem_map.mp hc2
      by_cases hxt : x.date = todayStr
      · rw [if_pos hxt] at hxeq
        exact hxeq.symm
      · rw [if_neg hxt] at hxeq
        exact absurd (by rw [hxeq]; exact hcd) hxt
    · push_neg at hex
      rw [replaceToday_eq_append todayStr e candles hex] at hc2
      rcases List.mem_append.mp hc2 with hc3 | hc3
      · exact absurd hcd (hex c hc3)
      · simpa using hc3
  have htodayEx : ∃ c ∈ upsertToday todayStr e candles, c.date = todayStr := by
    refine ⟨e, ?_, he⟩
    rw [hperm.mem_iff]
    by_cases hex : ∃ x ∈ candles, x.date = todayStr
    · rw [replaceToday_eq_map todayStr e candles hnd hex]
      obtain ⟨x, hx, hxt⟩ := hex
      exact List.mem_map.mpr ⟨x, hx, by simp [hxt]⟩
    · push_neg at hex
      rw [replaceToday_eq_append todayStr e candles hex]
      simp
  refine ⟨?_, ?_, ?_, ?_, ?_⟩
  · exact hsortb.imp (fun hab => by simpa [dateLe, decide_eq_true_eq] using hab)
  · exact ((hperm.map DocCandle.date).nodup_iff).mpr hndR
  · show (replaceToday todayStr e (upsertToday todayStr e candles)).mergeSort dateLe
      = upsertToday todayStr e candles
    rw [replaceToday_id todayStr e (upsertToday todayStr e candles) htodayEx htodayAll]
    exact List.mergeSort_of_sorted hsortb
  · intro hex
    refine hperm.trans ?_
    rw [replaceToday_eq_map todayStr e candles hnd hex]
  · intro hnone
    refine hperm.trans ?_
    rw [replaceToday_eq_append todayStr e candles hnone]
    exact List.perm_append_singleton e candles

/-- C7 counterexample: starting from a store that already holds two
candles dated today, the upsert replaces only the first match, so the
resulting list still has two candles for the same date — "at most one
candle per date" fails without the distinct-dates precondition. -/
theorem upsert_duplicate_dates :
    upsertToday "2024-05-05" ⟨"2024-05-05", 9, 9, 9, 9, 9⟩
        [⟨"2024-05-05", 1, 1, 1, 1, 1⟩, ⟨"2024-05-05", 2, 2, 2, 2, 2⟩]
      = [⟨"2024-05-05", 9, 9, 9, 9, 9⟩, ⟨"2024-05-05", 2, 2, 2, 2, 2⟩]
    ∧ ((upsertToday "2024-05-05" ⟨"2024-05-05", 9, 9, 9, 9, 9⟩
        [⟨"2024-05-05", 1, 1, 1, 1, 1⟩, ⟨"2024-05-05", 2, 2, 2, 2, 2⟩]).map DocCandle.date)
      = ["2024-05-05", "2024-05-05"]
    ∧ ¬ (((upsertToday "2024-05-05" ⟨"2024-05-05", 9, 9, 9, 9, 9⟩
        [⟨"2024-05-05", 1, 1, 1, 1, 1⟩, ⟨"2024-05-05", 2, 2, 2, 2, 2⟩]).map
          DocCandle.date).Nodup) := by
  have h1 : replaceToday "2024-05-05" ⟨"2024-05-05", 9, 9, 9, 9, 9⟩
      [⟨"2024-05-05", 1, 1, 1, 1, 1⟩, ⟨"2024-05-05", 2, 2, 2, 2, 2⟩]
      = [⟨"2024-05-05", 9, 9, 9, 9, 9⟩, ⟨"2024-05-05", 2, 2, 2, 2, 2⟩] := by
    simp [replaceToday]
  have hsorted : ([⟨"2024-05-05", 9, 9, 9, 9, 9⟩, ⟨"2024-05-05", 2, 2, 2, 2, 2⟩] :
      List DocCandle).Pairwise (fun a b => dateLe a b = true) := by
    simp [dateLe, List.pairwise_cons]
  have h2 : upsertToday "2024-05-05" ⟨"2024-05-05", 9, 9, 9, 9, 9⟩
      [⟨"2024-05-05", 1, 1, 1, 1, 1⟩, ⟨"2024-05-05", 2, 2, 2, 2, 2⟩]
      = [⟨"2024-05-05", 9, 9, 9, 9, 9⟩, ⟨"2024-05-05", 2, 2, 2, 2, 2⟩] := by
    show (replaceToday "2024-05-05" ⟨"2024-05-05", 9, 9, 9, 9, 9⟩
      [⟨"2024-05-05", 1, 1, 1, 1, 1⟩, ⟨"2024-05-05", 2, 2, 2, 2, 2⟩]).mergeSort dateLe = _
    rw [h1]
    exact List.mergeSort_of_sorted hsorted
  rw [h2]
  refine ⟨rfl, by decide, by decide⟩

/-- C7 witness: upserting today's candle into a two-candle store with
distinct dates — sorted, duplicate-free and idempotent. -/
theorem upsert_today_witness :
    ((⟨"2024-05-05", 9, 9, 9, 9, 9⟩ : DocCandle).date = "2024-05-05")
    ∧ (([⟨"2024-05-04", 1, 1, 1, 1, 1⟩, ⟨"2024-05-05", 2, 2, 2, 2, 2⟩] : List DocCandle).map
        DocCandle.date).Nodup
    ∧ (upsertToday "2024-05-05" ⟨"2024-05-05", 9, 9, 9, 9, 9⟩
        [⟨"2024-05-04", 1, 1, 1, 1, 1⟩, ⟨"2024-05-05", 2, 2, 2, 2, 2⟩]).Pairwise
        (fun a b => a.date ≤ b.date)
    ∧ ((upsertToday "2024-05-05" ⟨"2024-05-05", 9, 9, 9, 9, 9⟩
        [⟨"2024-05-04", 1, 1, 1, 1, 1⟩, ⟨"2024-05-05", 2, 2, 2, 2, 2⟩]).map DocCandle.date).Nodup
    ∧ upsertToday "2024-05-05" ⟨"2024-05-05", 9, 9, 9, 9, 9⟩
        (upsertToday "2024-05-05" ⟨"2024-05-05", 9, 9, 9, 9, 9⟩
          [⟨"2024-05-04", 1, 1, 1, 1, 1⟩, ⟨"2024-05-05", 2, 2, 2, 2, 2⟩])
      = upsertToday "2024-05-05" ⟨"2024-05-05", 9, 9, 9, 9, 9⟩
          [⟨"2024-05-04", 1, 1, 1, 1, 1⟩, ⟨"2024-05-05", 2, 2, 2, 2, 2⟩] := by
  have h := upsert_today_spec "2024-05-05" ⟨"2024-05-05", 9, 9, 9, 9, 9⟩
    [⟨"2024-05-04", 1, 1, 1, 1, 1⟩, ⟨"2024-05-05", 2, 2, 2, 2, 2⟩] rfl (by decide)
  exact ⟨rfl, by decide, h.1, h.2.1, h.2.2.1⟩


/-- On an already-sorted stored series, the document backend's limited
read returns the *last* `limit` candles (the Python slice `[-limit:]`
after ascending sort). -/
lemma ohlcHistoryRead_sorted (symbol : String) (candles : List DocCandle) (limit : ℕ)
    (hpos : 0 < limit) (hsorted : candles.Pairwise (fun a b => dateLe a b = true)) :
    ohlcHistoryRead [(symbol, candles)] symbol (limit : ℤ)
      = candles.drop (candles.length - limit) := by
  unfold ohlcHistoryRead
  have hlook : List.lookup symbol [(symbol, candles)] = some candles := by
    simp [List.lookup]
  rw [hlook]
  simp only [Option.getD_some]
  rw [List.mergeSort_of_sorted hsorted]
  rw [if_pos (by exact_mod_cast hpos)]
  simp

/-- On the corresponding relational rows, with the date range covering
the whole series, the SQL read returns the *first* `limit` rows
(ascending `ORDER BY` then `LIMIT`). -/
lemma getOhlcHistoryRead_sorted (symbol : String) (candles : List DocCandle)
    (fromDate toDate : String) (limit : ℕ)
    (hsorted : candles.Pairwise (fun a b => dateLe a b = true))
    (hrange : ∀ c ∈ candles, fromDate ≤ c.date ∧ c.date ≤ toDate) :
    getOhlcHistoryRead (candles.map (rowOfCandle symbol)) symbol fromDate toDate limit
      = (candles.take limit).map (rowOfCandle symbol) := by
  unfold getOhlcHistoryRead
  have hfil : (candles.map (rowOfCandle symbol)).filter (fun r =>
      r.symbol == symbol && decide (fromDate ≤ r.tradingDate) && decide (r.tradingDate ≤ toDate))
      = candles.map (rowOfCandle symbol) := by
    rw [List.filter_eq_self]
    intro r hr
    obtain ⟨c, hc, rfl⟩ := List.mem_map.mp hr
    simp [rowOfCandle, (hrange c hc).1, (hrange c hc).2]
  rw [hfil]
  dsimp only
  have hsorted2 : (candles.map (rowOfCandle symbol)).Pairwise
      (fun a b => decide (a.tradingDate ≤ b.tradingDate) = true) := by
    rw [List.pairwise_map]
    refine hsorted.imp ?_
    intro a b hab
    simpa [rowOfCandle, dateLe] using hab
  rw [List.mergeSort_of_sorted hsorted2, List.map_take]

/-- C2 amended: both backends sort ascending and apply the limit after
ordering, but they select different ends: for a stored series sorted by
strictly increasing dates lying inside the query range, the document
backend's limited read returns the *last* `limit` candles (most recent)
while the relational backend's limited date-range read returns the
*first* `limit` rows (oldest); the two selections coincide exactly when
the limit is at least the number of matching candles, in which case both
return the full series. -/
theorem history_limit_semantics (symbol : String) (candles : List DocCandle)
    (fromDate toDate : String) (limit : ℕ) (hpos : 0 < limit)
    (hsorted : candles.Pairwise (fun a b => a.date < b.date))
    (hrange : ∀ c ∈ candles, fromDate ≤ c.date ∧ c.date ≤ toDate) :
    ohlcHistoryRead [(symbol, candles)] symbol (limit : ℤ)
        = candles.drop (candles.length - limit)
    ∧ getOhlcHistoryRead (candles.map (rowOfCandle symbol)) symbol fromDate toDate limit
        = (candles.take limit).map (rowOfCandle symbol)
    ∧ (candles.length ≤ limit →
        (ohlcHistoryRead [(symbol, candles)] symbol (limit : ℤ)).map (rowOfCandle symbol)
          = getOhlcHistoryRead (candles.map (rowOfCandle symbol)) symbol fromDate toDate limit) := by
  have hsortedb : candles.Pairwise (fun a b => dateLe a b = true) := by
    refine hsorted.imp ?_
    intro a b hab
    simp [dateLe, le_of_lt hab]
  refine ⟨ohlcHistoryRead_sorted symbol candles limit hpos hsortedb,
    getOhlcHistoryRead_sorted symbol candles fromDate toDate limit hsortedb hrange, ?_⟩
  intro hle
  rw [ohlcHistoryRead_sorted symbol candles limit hpos hsortedb,
    getOhlcHistoryRead_sorted symbol candles fromDate toDate limit hsortedb hrange]
  rw [Nat.sub_eq_zero_of_le hle, List.drop_zero, List.take_of_length_le hle]


/-- C2 counterexample: same three-candle series in both backends,
limit 2 — the document backend returns the two most recent dates while
the relational backend returns the two earliest; the selections differ. -/
theorem history_limit_disagree :
    (ohlcHistoryRead [("ABC", [⟨"2024-01-01", 1, 1, 1, 1, 1⟩, ⟨"2024-01-02", 2, 2, 2, 2, 2⟩,
        ⟨"2024-01-03", 3, 3, 3, 3, 3⟩])] "ABC" ((2 : ℕ) : ℤ)).map DocCandle.date
      = ["2024-01-02", "2024-01-03"]
    ∧ (getOhlcHistoryRead (([⟨"2024-01-01", 1, 1, 1, 1, 1⟩, ⟨"2024-01-02", 2, 2, 2, 2, 2⟩,
        ⟨"2024-01-03", 3, 3, 3, 3, 3⟩] : List DocCandle).map (rowOfCandle "ABC")) "ABC"
        "2024-01-01" "2024-01-03" 2).map OhlcRow.tradingDate
      = ["2024-01-01", "2024-01-02"]
    ∧ (["2024-01-02", "2024-01-03"] : List String) ≠ ["2024-01-01", "2024-01-02"] := by
  have hsorted : ([⟨"2024-01-01", 1, 1, 1, 1, 1⟩, ⟨"2024-01-02", 2, 2, 2, 2, 2⟩,
      ⟨"2024-01-03", 3, 3, 3, 3, 3⟩] : List DocCandle).Pairwise
      (fun a b => dateLe a b = true) := by
    simp [dateLe, List.pairwise_cons]
    refine ⟨⟨?_, ?_⟩, ?_⟩ <;> decide
  have hrange : ∀ c ∈ ([⟨"2024-01-01", 1, 1, 1, 1, 1⟩, ⟨"2024-01-02", 2, 2, 2, 2, 2⟩,
      ⟨"2024-01-03", 3, 3, 3, 3, 3⟩] : List DocCandle),
      ("2024-01-01" : String) ≤ c.date ∧ c.date ≤ "2024-01-03" := by
    intro c hc
    rcases List.mem_cons.mp hc with rfl | hc2
    · refine ⟨?_, ?_⟩ <;> (simp; try decide)
    rcases List.mem_cons.mp hc2 with rfl | hc3
    · refine ⟨?_, ?_⟩ <;> (simp; try decide)
    rcases List.mem_cons.mp hc3 with rfl | hc4
    · refine ⟨?_, ?_⟩ <;> (simp; try decide)
    · simp at hc4
  rw [ohlcHistoryRead_sorted "ABC" _ 2 (by norm_num) hsorted,
    getOhlcHistoryRead_sorted "ABC" _ "2024-01-01" "2024-01-03" 2 hsorted hrange]
  refine ⟨by decide, by simp [rowOfCandle], by decide⟩

/-- C2 witness: with the limit at least the series length (two candles,
limit 5) both backends return the whole series and agree. -/
theorem history_limit_witness :
    (0 : ℕ) < 5
    ∧ (ohlcHistoryRead [("ABC", [⟨"2024-01-01", 1, 1, 1, 1, 1⟩,
          ⟨"2024-01-02", 2, 2, 2, 2, 2⟩])] "ABC" ((5 : ℕ) : ℤ)
        = ([⟨"2024-01-01", 1, 1, 1, 1, 1⟩, ⟨"2024-01-02", 2, 2, 2, 2, 2⟩] :
            List DocCandle).drop (([⟨"2024-01-01", 1, 1, 1, 1, 1⟩,
          ⟨"2024-01-02", 2, 2, 2, 2, 2⟩] : List DocCandle).length - 5))
    ∧ ((([⟨"2024-01-01", 1, 1, 1, 1, 1⟩, ⟨"2024-01-02", 2, 2, 2, 2, 2⟩] :
          List DocCandle).length ≤ 5) →
        (ohlcHistoryRead [("ABC", [⟨"2024-01-01", 1, 1, 1, 1, 1⟩,
            ⟨"2024-01-02", 2, 2, 2, 2, 2⟩])] "ABC" ((5 : ℕ) : ℤ)).map (rowOfCandle "ABC")
          = getOhlcHistoryRead (([⟨"2024-01-01", 1, 1, 1, 1, 1⟩,
              ⟨"2024-01-02", 2, 2, 2, 2, 2⟩] : List DocCandle).map (rowOfCandle "ABC")) "ABC"
              "2024-01-01" "2024-01-03" 5) := by
  have hsorted : ([⟨"2024-01-01", 1, 1, 1, 1, 1⟩, ⟨"2024-01-02", 2, 2, 2, 2, 2⟩] :
      List DocCandle).Pairwise (fun a b => a.date < b.date) := by
    simp [List.pairwise_cons]
    decide
  have hrange : ∀ c ∈ ([⟨"2024-01-01", 1, 1, 1, 1, 1⟩, ⟨"2024-01-02", 2, 2, 2, 2, 2⟩] :
      List DocCandle), ("2024-01-01" : String) ≤ c.date ∧ c.date ≤ "2024-01-03" := by
    intro c hc
    rcases List.mem_cons.mp hc with rfl | hc2
    · refine ⟨?_, ?_⟩ <;> (simp; try decide)
    rcases List.mem_cons.mp hc2 with rfl | hc3
    · refine ⟨?_, ?_⟩ <;> (simp; try decide)
    · simp at hc3
  have h := history_limit_semantics "ABC" [⟨"2024-01-01", 1, 1, 1, 1, 1⟩,
    ⟨"2024-01-02", 2, 2, 2, 2, 2⟩] "2024-01-01" "2024-01-03" 5 (by norm_num) hsorted hrange
  exact ⟨by norm_num, h.1, h.2.2⟩

end ReadData
